import Mathlib

/-!
# The `take` adaptor of flux (`include/flux/op/take.hpp`)

A shallow embedding of `flux::detail::take_adaptor` and `flux::detail::take_fn`.

* A base sequence is a record of its cursor operations together with the
  capabilities it declares (the concepts the adaptor tests with `if constexpr`
  and `requires`).
* `distance_t` is a signed 64-bit integer, modelled by `Int` with explicit range
  checks in the checked arithmetic.
* An operation that may end in `runtime_error` returns `Except Fatal _`.
* Loops take a fuel argument; `none` means the fuel ran out.
-/

namespace flux

/-! ## The canonical signed distance type and the checked arithmetic -/

/-- Smallest value of `distance_t` (a signed 64-bit integer). -/
def DIST_MIN : Int := -9223372036854775808

/-- Largest value of `distance_t` (a signed 64-bit integer). -/
def DIST_MAX : Int := 9223372036854775807

/-- Membership of a mathematical integer in the range of `distance_t`. -/
def in_distance_t (x : Int) : Bool := decide (DIST_MIN ≤ x) && decide (x ≤ DIST_MAX)

/-- The ways in which the adaptor terminates the program (all go through the
library's fatal-error primitive, which does not return). -/
inductive Fatal where
  | negative_argument
  | overflow
  | lossy_cast
  deriving DecidableEq, Repr

/-- Modelled from the spec: `num::checked_sub` (declared in `flux/core`, absent
here) is the overflow-checked subtraction that "fails fatally on underflow
rather than wrapping". -/
def checked_sub (a b : Int) : Except Fatal Int :=
  if in_distance_t (a - b) then .ok (a - b) else .error Fatal.overflow

/-- Modelled from the spec: `num::checked_add` (declared in `flux/core`, absent
here) is the overflow-checked addition, fatal on overflow. -/
def checked_add (a b : Int) : Except Fatal Int :=
  if in_distance_t (a + b) then .ok (a + b) else .error Fatal.overflow

/-- Modelled from the spec: `checked_cast<distance_t>` (declared in `flux/core`,
absent here) "converts the count to the canonical signed distance type"; the
argument is the mathematical value of the integral count, and a value that the
distance type cannot hold is a fatal error. -/
def checked_cast (count : Int) : Except Fatal Int :=
  if in_distance_t count then .ok count else .error Fatal.lossy_cast

/-! ## Base sequences -/

/-- The traversal capability a sequence declares; each level includes the ones
before it (`random_access_sequence` implies `bidirectional_sequence` implies
`multipass_sequence`). -/
inductive Traversal where
  | single_pass
  | multipass
  | bidirectional
  | random_access
  deriving DecidableEq, Repr

/-- A base sequence with cursors of type `κ` and elements of type `α`: the
operations `take_adaptor` calls on `self.base_`, and the concepts it tests. -/
structure Sequence (κ α : Type) where
  traversal : Traversal
  sized : Bool
  infinite : Bool
  first : κ
  is_last : κ → Bool
  inc : κ → κ
  read_at : κ → α
  dec : κ → κ
  inc_offset : κ → Int → κ
  distance : κ → κ → Int
  size : Int

namespace Sequence

variable {κ α : Type}

/-- Concept `multipass_sequence<Base>`. -/
def multipass_sequence (B : Sequence κ α) : Bool :=
  decide (B.traversal ≠ Traversal.single_pass)

/-- Concept `bidirectional_sequence<Base>`. -/
def bidirectional_sequence (B : Sequence κ α) : Bool :=
  decide (B.traversal = Traversal.bidirectional) || decide (B.traversal = Traversal.random_access)

/-- Concept `random_access_sequence<Base>`. -/
def random_access_sequence (B : Sequence κ α) : Bool :=
  decide (B.traversal = Traversal.random_access)

/-- The cursor reached from `first` by `k` single steps of the base. -/
def cursor_at (B : Sequence κ α) : Nat → κ
  | 0 => B.first
  | k + 1 => B.inc (cursor_at B k)

/-- Modelled from the spec: `flux::next(seq, cur, offset)` (declared in
`flux/core`, absent here) "advances the cursor forward by exactly `offset`
steps via the base's random-access jump"; a base without the jump is stepped
`offset` times with `inc`. -/
def next (B : Sequence κ α) (cur : κ) (offset : Int) : κ :=
  if B.random_access_sequence then B.inc_offset cur offset
  else Nat.iterate B.inc offset.toNat cur

/-- Modelled from the spec: `flux::for_each_while(seq, pred)` (declared in
`flux/op/for_each_while.hpp`, absent here): "visit elements from the current
position in order, invoking `predicate(element)` on each; stop as soon as the
predicate returns false; return a cursor positioned exactly where traversal
stopped". The predicate carries its own state of type `π`, which is threaded
through the calls. -/
def for_each_while_from {π : Type} (B : Sequence κ α) (pred : π → α → Bool × π) :
    Nat → κ → π → Option (κ × π)
  | 0, _, _ => none
  | fuel + 1, cur, p =>
    if B.is_last cur then some (cur, p)
    else
      match pred p (B.read_at cur) with
      | (false, p') => some (cur, p')
      | (true, p') => for_each_while_from B pred fuel (B.inc cur) p'

/-- The sequence-level entry point `flux::for_each_while(seq, pred)`: the loop
above, started at `first(seq)`. -/
def for_each_while {π : Type} (B : Sequence κ α) (pred : π → α → Bool × π)
    (fuel : Nat) (p : π) : Option (κ × π) :=
  for_each_while_from B pred fuel B.first p

end Sequence

/-! ## The adaptor -/

/-- The `take_adaptor<Base>` object: the owned base and the count. -/
structure take_adaptor (κ α : Type) where
  base_ : Sequence κ α
  count_ : Int

/-- The adaptor's `cursor_type`; `operator==` is defaulted, that is, both
fields are compared. -/
structure cursor_type (κ : Type) where
  base_cur : κ
  length : Int
  deriving DecidableEq, Repr

namespace take_adaptor

variable {κ α : Type}

/-- Source: `first(self)`. -/
def first (self : take_adaptor κ α) : cursor_type κ :=
  { base_cur := self.base_.first, length := self.count_ }

/-- Source: `is_last(self, cur)`. -/
def is_last (self : take_adaptor κ α) (cur : cursor_type κ) : Bool :=
  decide (cur.length ≤ 0) || self.base_.is_last cur.base_cur

/-- Source: `inc(self, cur)`, the single step. -/
def inc (self : take_adaptor κ α) (cur : cursor_type κ) : Except Fatal (cursor_type κ) :=
  match checked_sub cur.length 1 with
  | .error e => .error e
  | .ok length =>
    if self.base_.multipass_sequence then
      .ok { base_cur := self.base_.inc cur.base_cur, length := length }
    else
      if length > 0 then
        .ok { base_cur := self.base_.inc cur.base_cur, length := length }
      else
        .ok { base_cur := cur.base_cur, length := length }

/-- Source: `read_at(self, cur)`. -/
def read_at (self : take_adaptor κ α) (cur : cursor_type κ) : α :=
  self.base_.read_at cur.base_cur

/-- Source: the `requires bidirectional_sequence<Base>` clause of `dec`. -/
def dec_requires (self : take_adaptor κ α) : Bool :=
  self.base_.bidirectional_sequence

/-- Source: `dec(self, cur)`. -/
def dec (self : take_adaptor κ α) (cur : cursor_type κ) : Except Fatal (cursor_type κ) :=
  match checked_add cur.length 1 with
  | .error e => .error e
  | .ok length => .ok { base_cur := self.base_.dec cur.base_cur, length := length }

/-- Source: the `requires random_access_sequence<Base>` clause of the offset
`inc` and of `distance`. -/
def random_access_requires (self : take_adaptor κ α) : Bool :=
  self.base_.random_access_sequence

/-- Source: `inc(self, cur, offset)`, the jump. -/
def inc_offset (self : take_adaptor κ α) (cur : cursor_type κ) (offset : Int) :
    Except Fatal (cursor_type κ) :=
  match checked_sub cur.length offset with
  | .error e => .error e
  | .ok length => .ok { base_cur := self.base_.inc_offset cur.base_cur offset, length := length }

/-- Source: `distance(self, from, to)`. -/
def distance (self : take_adaptor κ α) (from_ to_ : cursor_type κ) : Except Fatal Int :=
  match checked_sub from_.length to_.length with
  | .error e => .error e
  | .ok d => .ok (min (self.base_.distance from_.base_cur to_.base_cur) d)

/-- Source: the `requires sized_sequence<Base> || infinite_sequence<Base>`
clause of `size`. -/
def size_requires (self : take_adaptor κ α) : Bool :=
  self.base_.sized || self.base_.infinite

/-- Source: `size(self)`. -/
def size (self : take_adaptor κ α) : Int :=
  if self.base_.infinite then self.count_
  else min self.base_.size self.count_

/-- Source: the `requires (random_access_sequence<Base> && sized_sequence<Base>)
|| infinite_sequence<Base>` clause of `last`. -/
def last_requires (self : take_adaptor κ α) : Bool :=
  (self.base_.random_access_sequence && self.base_.sized) || self.base_.infinite

/-- Source: `last(self)`. -/
def last (self : take_adaptor κ α) : cursor_type κ :=
  { base_cur := self.base_.next self.base_.first self.size, length := 0 }

/-- The lambda `for_each_while` hands to the base: its state is the state of
the caller's predicate together with the captured countdown `len`.
`pred(elem) && (--len > 0)` decrements only when `pred` accepted the element. -/
def counting_pred {π : Type} (pred : π → α → Bool × π) : π × Int → α → Bool × (π × Int)
  | (p, len), elem =>
    match pred p elem with
    | (false, p') => (false, (p', len))
    | (true, p') => (decide (len - 1 > 0), (p', len - 1))

/-- Source: `for_each_while(self, pred)`. The result is the returned cursor and
the final state of the caller's predicate. -/
def for_each_while {π : Type} (self : take_adaptor κ α) (pred : π → α → Bool × π)
    (fuel : Nat) (p : π) : Option (cursor_type κ × π) :=
  if self.count_ = 0 then some (self.first, p)
  else
    match self.base_.for_each_while (counting_pred pred) fuel (p, self.count_) with
    | none => none
    | some (cur, (p', len)) =>
      if self.base_.multipass_sequence then
        if len = 0 then some ({ base_cur := self.base_.inc cur, length := len }, p')
        else some ({ base_cur := cur, length := len }, p')
      else some ({ base_cur := cur, length := len }, p')

end take_adaptor

/-- Source: `take_fn::operator()(seq, count)`; `count` is the mathematical value
of the integral argument. -/
def take {κ α : Type} (seq : Sequence κ α) (count : Int) : Except Fatal (take_adaptor κ α) :=
  match checked_cast count with
  | .error e => .error e
  | .ok count_ =>
    if count_ < 0 then .error Fatal.negative_argument
    else .ok { base_ := seq, count_ := count_ }

/-! ## Callers of the adaptor and concrete bases -/

namespace Sequence

variable {κ α : Type}

/-- The elements a caller reads at the cursors `cursor_at k`, ...,
`cursor_at (k + m - 1)` of the base. -/
def elements_from (B : Sequence κ α) : Nat → Nat → List α
  | _, 0 => []
  | k, m + 1 => B.read_at (B.cursor_at k) :: elements_from B (k + 1) m

/-- The first `N` elements of the base, in the base's order. -/
def elements (B : Sequence κ α) (N : Nat) : List α := elements_from B 0 N

/-- The base is finite with exactly `N` elements: stepping from `first`, the
base's `is_last` is false at the first `N` cursors and true at the next one. -/
def has_count (B : Sequence κ α) (N : Nat) : Prop :=
  (∀ k, k < N → B.is_last (B.cursor_at k) = false) ∧ B.is_last (B.cursor_at N) = true

instance (B : Sequence κ α) (N : Nat) : Decidable (B.has_count N) := by
  unfold has_count; exact inferInstance

/-- The view `take(B, n)` has exactly `L` elements: `L` is at most `n`, the
base is not at its end at the first `L` cursors, and when `L` is below `n` the
base ends there. For a base with `N` elements `L` is `min n N`; for a base that
never ends `L` is `n`. -/
def view_count (B : Sequence κ α) (n : Int) (L : Nat) : Prop :=
  (L : Int) ≤ n ∧ (∀ k, k < L → B.is_last (B.cursor_at k) = false) ∧
    ((L : Int) < n → B.is_last (B.cursor_at L) = true)

instance (B : Sequence κ α) (n : Int) (L : Nat) : Decidable (B.view_count n L) := by
  unfold view_count; exact inferInstance

/-- The state of a predicate after it has been invoked, in order, on the first
`j` elements of the base. -/
def pred_state {π : Type} (B : Sequence κ α) (pred : π → α → Bool × π) (p : π) : Nat → π
  | 0 => p
  | j + 1 => (pred (pred_state B pred p j) (B.read_at (B.cursor_at j))).2

/-- The answer of the predicate on the element at position `j`, when it has
been invoked on the elements before it. -/
def pred_result {π : Type} (B : Sequence κ α) (pred : π → α → Bool × π) (p : π) (j : Nat) :
    Bool :=
  (pred (pred_state B pred p j) (B.read_at (B.cursor_at j))).1

/-- A contiguous container with the elements `xs` (a `std::vector`, say): the
cursor is the index, the sequence is random-access and sized. -/
def of_list (xs : List Int) : Sequence Int Int where
  traversal := Traversal.random_access
  sized := true
  infinite := false
  first := 0
  is_last := fun i => decide (i = xs.length)
  inc := fun i => i + 1
  read_at := fun i => if 0 ≤ i then xs.getD i.toNat 0 else 0
  dec := fun i => i - 1
  inc_offset := fun i k => i + k
  distance := fun i j => j - i
  size := xs.length

/-- The unbounded sequence `start, start + 1, ...` (`flux::ints(start)`): the
cursor is the value itself. -/
def ints (start : Int) : Sequence Int Int where
  traversal := Traversal.random_access
  sized := false
  infinite := true
  first := start
  is_last := fun _ => false
  inc := fun i => i + 1
  read_at := fun i => i
  dec := fun i => i - 1
  inc_offset := fun i k => i + k
  distance := fun i j => j - i
  size := 0

/-- The base cursor at position `p`, reached from `first` by one jump. -/
def position (B : Sequence κ α) (p : Nat) : κ := B.inc_offset B.first (p : Int)

/-- The semantic requirements of `random_access_sequence` on the positions
`0, ..., L` of the base: a jump by zero stays, a jump or a single step from one
position lands on the position it names, and `distance` is the difference of
the positions. -/
def random_access_lawful (B : Sequence κ α) (L : Nat) : Prop :=
  B.position 0 = B.first ∧
  (∀ p, p < L + 1 → ∀ q, q < L + 1 →
    B.inc_offset (B.position p) ((q : Int) - p) = B.position q ∧
    B.distance (B.position p) (B.position q) = (q : Int) - p) ∧
  (∀ p, p < L →
    B.inc (B.position p) = B.position (p + 1) ∧ B.dec (B.position (p + 1)) = B.position p)

instance [DecidableEq κ] (B : Sequence κ α) (L : Nat) : Decidable (B.random_access_lawful L) := by
  unfold random_access_lawful; exact inferInstance

/-- The base `B` with a counter of the calls of its `inc` carried next to the
cursor: every operation acts on the cursor as in `B`, and `inc` also adds one
to the counter. The declared capabilities are those of `B`. -/
def with_inc_count (B : Sequence κ α) : Sequence (κ × Nat) α where
  traversal := B.traversal
  sized := B.sized
  infinite := B.infinite
  first := (B.first, 0)
  is_last := fun c => B.is_last c.1
  inc := fun c => (B.inc c.1, c.2 + 1)
  read_at := fun c => B.read_at c.1
  dec := fun c => (B.dec c.1, c.2)
  inc_offset := fun c k => (B.inc_offset c.1 k, c.2)
  distance := fun c d => B.distance c.1 d.1
  size := B.size

/-- The base's jump agrees with its repeated single steps: a jump by `m ≥ 0`
is `m` steps of `inc`, a jump by `-m` is `m` steps of `dec`, and two jumps in a
row are the jump by the sum. -/
def jump_lawful (B : Sequence κ α) : Prop :=
  ∀ c : κ, (∀ m : Nat, B.inc_offset c (m : Int) = Nat.iterate B.inc m c) ∧
    (∀ m : Nat, B.inc_offset c (-(m : Int)) = Nat.iterate B.dec m c) ∧
    (∀ j k : Int, B.inc_offset (B.inc_offset c j) k = B.inc_offset c (j + k))

/-- The function `pos` gives the number of base positions from the base's first
cursor to a base cursor: it is `0` at `first` and follows `inc`, and also `dec`
and the jump where the base offers them. -/
def position_lawful (B : Sequence κ α) (pos : κ → Int) : Prop :=
  pos B.first = 0 ∧
  ∀ c : κ, pos (B.inc c) = pos c + 1 ∧
    (B.bidirectional_sequence = true → pos (B.dec c) = pos c - 1) ∧
    (B.random_access_sequence = true → ∀ k : Int, pos (B.inc_offset c k) = pos c + k)

/-- The same sequence with every capability beyond single-pass traversal
withdrawn (the test helper `single_pass_only`). -/
def single_pass_only (B : Sequence κ α) : Sequence κ α :=
  { B with traversal := Traversal.single_pass, sized := false }

end Sequence

namespace take_adaptor

variable {κ α : Type}

/-- The caller's element loop `for (cur; !is_last(cur); inc(cur)) read_at(cur)`,
started at `cur`: the elements read, and the cursor at which `is_last` held. -/
def traverse_from (self : take_adaptor κ α) :
    Nat → cursor_type κ → Option (Except Fatal (List α × cursor_type κ))
  | 0, _ => none
  | fuel + 1, cur =>
    if self.is_last cur then some (.ok ([], cur))
    else
      match self.inc cur with
      | .error e => some (.error e)
      | .ok cur' =>
        match traverse_from self fuel cur' with
        | some (.ok (xs, stop)) => some (.ok (self.read_at cur :: xs, stop))
        | r => r

/-- The caller's element loop over the whole view, from `first()`. -/
def traverse (self : take_adaptor κ α) (fuel : Nat) :
    Option (Except Fatal (List α × cursor_type κ)) :=
  traverse_from self fuel self.first

/-- The single-step `inc` applied `k` times. -/
def inc_times (self : take_adaptor κ α) : Nat → cursor_type κ → Except Fatal (cursor_type κ)
  | 0, cur => .ok cur
  | k + 1, cur =>
    match self.inc cur with
    | .error e => .error e
    | .ok cur' => inc_times self k cur'

/-- The step `dec` applied `k` times. -/
def dec_times (self : take_adaptor κ α) : Nat → cursor_type κ → Except Fatal (cursor_type κ)
  | 0, cur => .ok cur
  | k + 1, cur =>
    match self.dec cur with
    | .error e => .error e
    | .ok cur' => dec_times self k cur'

/-- The base position of the cursor reached from `first()` by `k` single steps
inside the view: over a multipass base it is `k`; over a single-pass base the
step that brings the length to zero leaves the base cursor in place. -/
def stepped_position (B : Sequence κ α) (n : Int) (k : Nat) : Nat :=
  if B.multipass_sequence then k else min k (n.toNat - 1)

/-- The cursors of a view of `L` elements that a caller obtains without leaving
the view, each with its position: `first()` and `last()`, a single `inc` at a
cursor that is not last, a `dec` at a position after the first, and a jump to
any position from `0` to `L`. -/
inductive in_view (self : take_adaptor κ α) (L : Nat) : Nat → cursor_type κ → Prop
  | first : in_view self L 0 self.first
  | last : self.last_requires = true → in_view self L L self.last
  | inc (p : Nat) (c c' : cursor_type κ) :
      in_view self L p c → self.is_last c = false → self.inc c = .ok c' →
      in_view self L (p + 1) c'
  | dec (p : Nat) (c c' : cursor_type κ) :
      in_view self L (p + 1) c → self.dec c = .ok c' → in_view self L p c'
  | jump (p q : Nat) (c c' : cursor_type κ) :
      in_view self L p c → q ≤ L → self.inc_offset c ((q : Int) - p) = .ok c' →
      in_view self L q c'

/-- The generic bulk traversal built from the adaptor's own operations:
`cur = first(); while (!is_last(cur)) { if (!pred(read_at(cur))) break; inc(cur); }
return cur;`, here started at `cur`. -/
def generic_for_each_while_from {π : Type} (self : take_adaptor κ α)
    (pred : π → α → Bool × π) :
    Nat → cursor_type κ → π → Option (Except Fatal (cursor_type κ × π))
  | 0, _, _ => none
  | fuel + 1, cur, p =>
    if self.is_last cur then some (.ok (cur, p))
    else
      match pred p (self.read_at cur) with
      | (false, p') => some (.ok (cur, p'))
      | (true, p') =>
        match self.inc cur with
        | .error e => some (.error e)
        | .ok cur' => generic_for_each_while_from self pred fuel cur' p'

/-- The generic bulk traversal over the whole view, from `first()`. -/
def generic_for_each_while {π : Type} (self : take_adaptor κ α) (pred : π → α → Bool × π)
    (fuel : Nat) (p : π) : Option (Except Fatal (cursor_type κ × π)) :=
  generic_for_each_while_from self pred fuel self.first p

/-- A caller's predicate that also tallies its calls: next to the state of
`pred` it keeps the number of elements `pred` was invoked on and the number of
elements `pred` returned true on. -/
def tallying {π : Type} (pred : π → α → Bool × π) : π × Nat × Nat → α → Bool × (π × Nat × Nat)
  | (p, invoked, accepted), elem =>
    match pred p elem with
    | (false, p') => (false, (p', invoked + 1, accepted))
    | (true, p') => (true, (p', invoked + 1, accepted + 1))

/-- The cursors a caller obtains from `first()` by any sequence of the single
step `inc`, of `dec` and of the jump that does not end in a fatal error. -/
inductive reachable (self : take_adaptor κ α) : cursor_type κ → Prop
  | first : reachable self self.first
  | inc (c c' : cursor_type κ) : reachable self c → self.inc c = .ok c' → reachable self c'
  | dec (c c' : cursor_type κ) :
      reachable self c → self.dec_requires = true → self.dec c = .ok c' → reachable self c'
  | jump (c c' : cursor_type κ) (k : Int) :
      reachable self c → self.random_access_requires = true →
      self.inc_offset c k = .ok c' → reachable self c'

end take_adaptor

/-! ## Lemmas on the checked arithmetic -/

theorem checked_sub_ok {a b : Int} (hlo : DIST_MIN ≤ a - b) (hhi : a - b ≤ DIST_MAX) :
    checked_sub a b = .ok (a - b) := by
  simp [checked_sub, in_distance_t, hlo, hhi]

theorem checked_add_ok {a b : Int} (hlo : DIST_MIN ≤ a + b) (hhi : a + b ≤ DIST_MAX) :
    checked_add a b = .ok (a + b) := by
  simp [checked_add, in_distance_t, hlo, hhi]

theorem checked_sub_eq_ok {a b d : Int} (h : checked_sub a b = .ok d) :
    d = a - b ∧ DIST_MIN ≤ a - b ∧ a - b ≤ DIST_MAX := by
  unfold checked_sub in_distance_t at h
  split at h
  · rename_i hr
    simp only [Bool.and_eq_true, decide_eq_true_eq] at hr
    simp only [Except.ok.injEq] at h
    exact ⟨h.symm, hr.1, hr.2⟩
  · simp at h

theorem DIST_MIN_neg : DIST_MIN < 0 := by decide

theorem DIST_MAX_pos : 0 < DIST_MAX := by decide

theorem DIST_MIN_add_DIST_MAX : DIST_MIN + DIST_MAX = -1 := by decide

/-! ## Forward traversal -/

namespace Sequence

variable {κ α : Type}

theorem take_elements_from (B : Sequence κ α) (j : Nat) :
    ∀ (m k : Nat), (B.elements_from k m).take j = B.elements_from k (min j m) := by
  induction j with
  | zero => intro m k; simp [elements_from]
  | succ j ih =>
    intro m k
    cases m with
    | zero => simp [elements_from]
    | succ m =>
      have h : min (j + 1) (m + 1) = min j m + 1 := by omega
      rw [h]
      simp [elements_from, ih]

theorem has_count_view_count (B : Sequence κ α) (N : Nat) (n : Int) (hN : B.has_count N)
    (hn : 0 ≤ n) : B.view_count n (min n.toNat N) := by
  refine ⟨by omega, fun k hk => hN.1 k (by omega), fun hlt => ?_⟩
  have h : min n.toNat N = N := by omega
  rw [h]; exact hN.2

theorem length_elements_from (B : Sequence κ α) :
    ∀ (m k : Nat), (B.elements_from k m).length = m := by
  intro m
  induction m with
  | zero => intro k; simp [elements_from]
  | succ m ih => intro k; simp [elements_from, ih]

end Sequence

namespace take_adaptor

variable {κ α : Type}

/-- The element loop from the cursor at view position `k`: it reads the `m`
elements up to the end of the view and stops at an exhausted cursor. -/
theorem traverse_from_position (B : Sequence κ α) (L : Nat) (n : Int)
    (hL : B.view_count n L) (hmax : n ≤ DIST_MAX) :
    ∀ (m k fuel : Nat) (cur : cursor_type κ),
      k + m = L → m < fuel → cur.length = n - k →
      (0 < n - k → cur.base_cur = B.cursor_at k) →
      ∃ stop, traverse_from { base_ := B, count_ := n } fuel cur
          = some (.ok (B.elements_from k m, stop)) ∧
        is_last { base_ := B, count_ := n } stop = true := by
  intro m
  induction m with
  | zero =>
    intro k fuel cur hk hfuel hlen hbase
    obtain ⟨f, rfl⟩ : ∃ f, fuel = f + 1 := ⟨fuel - 1, by omega⟩
    have hlast : is_last { base_ := B, count_ := n } cur = true := by
      simp only [is_last, Bool.or_eq_true, decide_eq_true_eq]
      by_cases hkn : (k : Int) < n
      · right
        have hkL : k = L := by omega
        rw [hbase (by omega), hkL]
        exact hL.2.2 (by omega)
      · left; omega
    exact ⟨cur, by simp [traverse_from, hlast, Sequence.elements_from], hlast⟩
  | succ m ih =>
    intro k fuel cur hk hfuel hlen hbase
    obtain ⟨f, rfl⟩ : ∃ f, fuel = f + 1 := ⟨fuel - 1, by omega⟩
    have hLn : (L : Int) ≤ n := hL.1
    have hkN : k < L := by omega
    have hkn : (k : Int) < n := by omega
    have hb : cur.base_cur = B.cursor_at k := hbase (by omega)
    have hnotlast : is_last { base_ := B, count_ := n } cur = false := by
      simp only [is_last, Bool.or_eq_false_iff, decide_eq_false_iff_not]
      refine ⟨by omega, ?_⟩
      rw [hb]; exact hL.2.1 k hkN
    have hsub : checked_sub cur.length 1 = .ok (n - k - 1) := by
      rw [hlen]
      exact checked_sub_ok (by have := DIST_MIN_neg; omega) (by omega)
    obtain ⟨next_cur, hinc, hnlen, hnbase⟩ :
        ∃ c, inc { base_ := B, count_ := n } cur = .ok c ∧ c.length = n - (k + 1 : Nat) ∧
          (0 < n - (k + 1 : Nat) → c.base_cur = B.cursor_at (k + 1)) := by
      by_cases hmp : B.multipass_sequence = true
      · refine ⟨_, by simp only [inc, hsub, hmp, if_true]; rfl, ?_, ?_⟩
        · simp only; omega
        · intro _; simp only [Sequence.cursor_at, hb]
      · by_cases hpos : n - k - 1 > 0
        · refine ⟨_, by simp only [inc, hsub, hmp, hpos, if_true]; rfl, ?_, ?_⟩
          · simp only; omega
          · intro _; simp only [Sequence.cursor_at, hb]
        · refine ⟨_, by simp only [inc, hsub, hmp, hpos, if_false]; rfl, ?_, ?_⟩
          · simp only; omega
          · intro h; omega
    obtain ⟨stop, hrest, hstop⟩ := ih (k + 1) f next_cur (by omega) (by omega) hnlen hnbase
    refine ⟨stop, ?_, hstop⟩
    simp only [traverse_from, hnotlast, hinc, hrest, Sequence.elements_from, read_at, hb]
    simp

end take_adaptor

theorem take_ok {κ α : Type} (B : Sequence κ α) (n : Int) (hn : 0 ≤ n) (hmax : n ≤ DIST_MAX) :
    take B n = .ok { base_ := B, count_ := n } := by
  have hlo : DIST_MIN ≤ n := le_trans (le_of_lt DIST_MIN_neg) hn
  have hneg : ¬ n < 0 := not_lt.mpr hn
  simp [take, checked_cast, in_distance_t, hlo, hmax, hneg]

/-! ## The bulk traversal -/

namespace take_adaptor

variable {κ α : Type}

theorem pred_eq_of_result {π : Type} (B : Sequence κ α) (pred : π → α → Bool × π) (p : π)
    (j : Nat) (b : Bool) (h : B.pred_result pred p j = b) :
    pred (B.pred_state pred p j) (B.read_at (B.cursor_at j))
      = (b, B.pred_state pred p (j + 1)) :=
  Prod.ext h rfl

/-- The base's loop under the counting lambda, when the caller's predicate
first answers false at position `i` inside the view: it stops at the cursor of
that element with the countdown at `n - i`. -/
theorem base_loop_stops_at_reject {π : Type} (B : Sequence κ α) (n : Int) (L : Nat)
    (pred : π → α → Bool × π) (p : π) (i : Nat) (hL : B.view_count n L) (hi : i < L)
    (hacc : ∀ j, j < i → B.pred_result pred p j = true)
    (hrej : B.pred_result pred p i = false) :
    ∀ (d k fuel : Nat) (len : Int), k + d = i → d < fuel → len = n - k →
      B.for_each_while_from (counting_pred pred) fuel (B.cursor_at k)
          (B.pred_state pred p k, len)
        = some (B.cursor_at i, (B.pred_state pred p (i + 1), n - i)) := by
  intro d
  induction d with
  | zero =>
    intro k fuel len hk hfuel hlen
    obtain ⟨f, rfl⟩ : ∃ f, fuel = f + 1 := ⟨fuel - 1, by omega⟩
    have hki : k = i := by omega
    subst hki
    have hnl := hL.2.1 k hi
    have hq := pred_eq_of_result B pred p k false hrej
    simp only [Sequence.for_each_while_from, hnl, counting_pred, hq, hlen]
    simp
  | succ d ih =>
    intro k fuel len hk hfuel hlen
    obtain ⟨f, rfl⟩ : ∃ f, fuel = f + 1 := ⟨fuel - 1, by omega⟩
    have hnl := hL.2.1 k (by omega)
    have hq := pred_eq_of_result B pred p k true (hacc k (by omega))
    have hLn := hL.1
    have hpos : len - 1 > 0 := by omega
    simp only [Sequence.for_each_while_from, hnl, counting_pred, hq, hpos]
    simp only [decide_True, Bool.false_eq_true, if_false]
    exact ih (k + 1) f (len - 1) (by omega) (by omega) (by push_cast; omega)

/-- The base's loop under the counting lambda, when the caller's predicate
accepts all `n` elements of a view that the count bounds: it stops at the
cursor of the last element with the countdown at zero. -/
theorem base_loop_stops_at_count {π : Type} (B : Sequence κ α) (n : Int) (L : Nat)
    (pred : π → α → Bool × π) (p : π) (hL : B.view_count n L) (hfull : (L : Int) = n)
    (hacc : ∀ j, j < L → B.pred_result pred p j = true) :
    ∀ (d k fuel : Nat) (len : Int), k + d + 1 = L → d < fuel → len = n - k →
      B.for_each_while_from (counting_pred pred) fuel (B.cursor_at k)
          (B.pred_state pred p k, len)
        = some (B.cursor_at (L - 1), (B.pred_state pred p L, 0)) := by
  intro d
  induction d with
  | zero =>
    intro k fuel len hk hfuel hlen
    obtain ⟨f, rfl⟩ : ∃ f, fuel = f + 1 := ⟨fuel - 1, by omega⟩
    have hnl := hL.2.1 k (by omega)
    have hq := pred_eq_of_result B pred p k true (hacc k (by omega))
    have hzero : len - 1 = 0 := by omega
    have hk1 : k + 1 = L := by omega
    have hk2 : L - 1 = k := by omega
    simp only [Sequence.for_each_while_from, hnl, counting_pred, hq, hzero, hk1, hk2]
    simp
  | succ d ih =>
    intro k fuel len hk hfuel hlen
    obtain ⟨f, rfl⟩ : ∃ f, fuel = f + 1 := ⟨fuel - 1, by omega⟩
    have hnl := hL.2.1 k (by omega)
    have hq := pred_eq_of_result B pred p k true (hacc k (by omega))
    have hpos : len - 1 > 0 := by omega
    simp only [Sequence.for_each_while_from, hnl, counting_pred, hq, hpos]
    simp only [decide_True, Bool.false_eq_true, if_false]
    exact ih (k + 1) f (len - 1) (by omega) (by omega) (by push_cast; omega)

end take_adaptor

/-! ## Repeated single steps -/

namespace Sequence

variable {κ α : Type}

theorem multipass_of_bidirectional (B : Sequence κ α) (h : B.bidirectional_sequence = true) :
    B.multipass_sequence = true := by
  unfold bidirectional_sequence at h
  unfold multipass_sequence
  cases ht : B.traversal <;> simp_all

theorem bidirectional_of_random_access (B : Sequence κ α)
    (h : B.random_access_sequence = true) : B.bidirectional_sequence = true := by
  unfold random_access_sequence at h
  unfold bidirectional_sequence
  simp_all

end Sequence

namespace take_adaptor

variable {κ α : Type}

theorem inc_multipass (B : Sequence κ α) (n : Int) (cur : cursor_type κ)
    (hmp : B.multipass_sequence = true) (hlo : DIST_MIN ≤ cur.length - 1)
    (hhi : cur.length - 1 ≤ DIST_MAX) :
    inc { base_ := B, count_ := n } cur
      = .ok { base_cur := B.inc cur.base_cur, length := cur.length - 1 } := by
  simp [inc, checked_sub_ok hlo hhi, hmp]

theorem dec_ok (B : Sequence κ α) (n : Int) (cur : cursor_type κ)
    (hlo : DIST_MIN ≤ cur.length + 1) (hhi : cur.length + 1 ≤ DIST_MAX) :
    dec { base_ := B, count_ := n } cur
      = .ok { base_cur := B.dec cur.base_cur, length := cur.length + 1 } := by
  simp [dec, checked_add_ok hlo hhi]

/-- Over a multipass base, `k` single steps from the cursor at position `j`
lead to the cursor at position `j + k`, the length having dropped by `k`. -/
theorem inc_times_multipass (B : Sequence κ α) (n : Int) (hmp : B.multipass_sequence = true)
    (hmax : n ≤ DIST_MAX) :
    ∀ (k j : Nat), DIST_MIN ≤ n - (j + k : Nat) →
      inc_times { base_ := B, count_ := n } k { base_cur := B.cursor_at j, length := n - j }
        = .ok { base_cur := B.cursor_at (j + k), length := n - (j + k : Nat) } := by
  intro k
  induction k with
  | zero => intro j _; simp [inc_times]
  | succ k ih =>
    intro j hlo
    have hstep := inc_multipass B n { base_cur := B.cursor_at j, length := n - j } hmp
      (by simp only; push_cast at hlo; omega) (by simp only; omega)
    have hnext := ih (j + 1) (by push_cast at hlo ⊢; omega)
    have e1 : (n - (j : Int) - 1) = n - ((j + 1 : Nat) : Int) := by push_cast; omega
    have e2 : j + 1 + k = j + (k + 1) := by omega
    simp only [inc_times, hstep]
    rw [e1]
    simp only [Sequence.cursor_at] at hnext
    rw [hnext, e2]

/-- When `dec` of the base undoes `inc` at the first `k` cursors, `k` backward
steps lead from the cursor at position `k` back to `first()`. -/
theorem dec_times_back (B : Sequence κ α) (n : Int) (hmax : n ≤ DIST_MAX) :
    ∀ (k : Nat), DIST_MIN ≤ n - k →
      (∀ j, j < k → B.dec (B.inc (B.cursor_at j)) = B.cursor_at j) →
      dec_times { base_ := B, count_ := n } k { base_cur := B.cursor_at k, length := n - k }
        = .ok (first { base_ := B, count_ := n }) := by
  intro k
  induction k with
  | zero => intro _ _; simp [dec_times, first, Sequence.cursor_at]
  | succ k ih =>
    intro hlo hlaw
    have hstep := dec_ok B n { base_cur := B.cursor_at (k + 1), length := n - (k + 1 : Nat) }
      (by simp only; push_cast at hlo ⊢; omega) (by simp only; push_cast; omega)
    have e1 : n - ((k + 1 : Nat) : Int) + 1 = n - (k : Int) := by push_cast; omega
    simp only [dec_times, hstep, e1]
    simp only [Sequence.cursor_at, hlaw k (Nat.lt_succ_self k)]
    exact ih (by push_cast at hlo; omega) (fun j hj => hlaw j (Nat.lt_succ_of_lt hj))

end take_adaptor

/-! ## Cursors inside the view of a random-access base -/

namespace Sequence

variable {κ α : Type}

theorem multipass_of_random_access (B : Sequence κ α) (h : B.random_access_sequence = true) :
    B.multipass_sequence = true :=
  B.multipass_of_bidirectional (B.bidirectional_of_random_access h)

theorem position_eq_cursor_at (B : Sequence κ α) (L : Nat) (hlaw : B.random_access_lawful L) :
    ∀ p, p ≤ L → B.position p = B.cursor_at p := by
  intro p
  induction p with
  | zero => intro _; exact hlaw.1
  | succ p ih =>
    intro hp
    rw [← (hlaw.2.2 p (by omega)).1, ih (by omega)]
    rfl

end Sequence

namespace take_adaptor

variable {κ α : Type}

theorem inc_eq_ok_multipass (B : Sequence κ α) (n : Int) (c c' : cursor_type κ)
    (hmp : B.multipass_sequence = true) (h : inc { base_ := B, count_ := n } c = .ok c') :
    c' = { base_cur := B.inc c.base_cur, length := c.length - 1 } ∧
      DIST_MIN ≤ c.length - 1 := by
  unfold inc at h
  cases hs : checked_sub c.length 1 with
  | error e => rw [hs] at h; simp at h
  | ok d =>
    obtain ⟨hd, hlo, _⟩ := checked_sub_eq_ok hs
    rw [hs] at h
    simp only [hmp, if_true, Except.ok.injEq] at h
    exact ⟨by rw [← h, hd], hlo⟩

theorem dec_eq_ok (B : Sequence κ α) (n : Int) (c c' : cursor_type κ)
    (h : dec { base_ := B, count_ := n } c = .ok c') :
    c' = { base_cur := B.dec c.base_cur, length := c.length + 1 } := by
  unfold dec checked_add at h
  split at h
  · simp at h
  · rename_i d hd
    split at hd
    · simp only [Except.ok.injEq] at hd h
      rw [← h, ← hd]
    · simp at hd

theorem inc_offset_eq_ok (B : Sequence κ α) (n : Int) (c c' : cursor_type κ) (k : Int)
    (h : inc_offset { base_ := B, count_ := n } c k = .ok c') :
    c' = { base_cur := B.inc_offset c.base_cur k, length := c.length - k } := by
  unfold inc_offset at h
  cases hs : checked_sub c.length k with
  | error e => rw [hs] at h; simp at h
  | ok d =>
    obtain ⟨hd, _, _⟩ := checked_sub_eq_ok hs
    rw [hs] at h
    simp only [Except.ok.injEq] at h
    rw [← h, hd]

/-- A cursor obtained inside the view sits on the base position it is indexed
by, and its length is what is left of the count or of the view. -/
theorem in_view_shape (B : Sequence κ α) (n : Int) (L : Nat)
    (hra : B.random_access_sequence = true) (hL : B.view_count n L)
    (hlaw : B.random_access_lawful L)
    (hsz : last_requires { base_ := B, count_ := n } = true →
      size { base_ := B, count_ := n } = (L : Int))
    (p : Nat) (c : cursor_type κ) (h : in_view { base_ := B, count_ := n } L p c) :
    p ≤ L ∧ c.base_cur = B.position p ∧ (c.length = n - p ∨ c.length = (L : Int) - p) := by
  have hmp := B.multipass_of_random_access hra
  induction h with
  | first =>
    refine ⟨Nat.zero_le L, hlaw.1.symm, Or.inl ?_⟩
    simp [first]
  | last hreq =>
    refine ⟨le_refl L, ?_, Or.inr ?_⟩
    · simp only [last, Sequence.next, hra, if_true, hsz hreq]
      rfl
    · simp [last]
  | inc p c c' _ hnl hinc ih =>
    obtain ⟨hp, hb, hlen⟩ := ih
    obtain ⟨hc', _⟩ := inc_eq_ok_multipass B n c c' hmp hinc
    simp only [is_last, Bool.or_eq_false_iff, decide_eq_false_iff_not] at hnl
    have hpL : p < L := by
      by_contra hcon
      have hpe : p = L := by omega
      rcases hlen with hlen | hlen
      · have hlt : (L : Int) < n := by omega
        have hlast := hL.2.2 hlt
        rw [← B.position_eq_cursor_at L hlaw L (le_refl L), ← hpe, ← hb] at hlast
        rw [hlast] at hnl
        exact absurd hnl.2 (by simp)
      · omega
    refine ⟨hpL, ?_, ?_⟩
    · rw [hc']; simp only; rw [hb]; exact (hlaw.2.2 p hpL).1
    · rw [hc']; simp only; push_cast; omega
  | dec p c c' _ hdec ih =>
    obtain ⟨hp, hb, hlen⟩ := ih
    have hc' := dec_eq_ok B n c c' hdec
    refine ⟨by omega, ?_, ?_⟩
    · rw [hc']; simp only; rw [hb]; exact (hlaw.2.2 p (by omega)).2
    · rw [hc']; simp only; push_cast at hlen; omega
  | jump p q c c' _ hq hjump ih =>
    obtain ⟨hp, hb, hlen⟩ := ih
    have hc' := inc_offset_eq_ok B n c c' _ hjump
    refine ⟨hq, ?_, ?_⟩
    · rw [hc']; simp only; rw [hb]; exact (hlaw.2.1 p (by omega) q (by omega)).1
    · rw [hc']; simp only; omega

end take_adaptor

/-! ## Where the caller's loop stops -/

namespace take_adaptor

variable {κ α : Type}

/-- The cursor at which the caller's loop stops is the one reached by as many
single steps as elements were read. -/
theorem traverse_from_stop (self : take_adaptor κ α) :
    ∀ (fuel : Nat) (cur : cursor_type κ) (xs : List α) (stop : cursor_type κ),
      traverse_from self fuel cur = some (.ok (xs, stop)) →
      inc_times self xs.length cur = .ok stop := by
  intro fuel
  induction fuel with
  | zero => intro cur xs stop h; simp [traverse_from] at h
  | succ f ih =>
    intro cur xs stop h
    unfold traverse_from at h
    by_cases hl : self.is_last cur = true
    · simp only [hl, if_true, Option.some.injEq, Except.ok.injEq, Prod.mk.injEq] at h
      obtain ⟨hxs, hstop⟩ := h
      subst hxs; subst hstop
      simp [inc_times]
    · simp only [hl] at h
      cases hinc : self.inc cur with
      | error e => rw [hinc] at h; simp at h
      | ok cur' =>
        rw [hinc] at h
        simp only [Bool.false_eq_true, if_false] at h
        cases hrest : traverse_from self f cur' with
        | none => rw [hrest] at h; simp at h
        | some r =>
          cases r with
          | error e => rw [hrest] at h; simp at h
          | ok pr =>
            obtain ⟨ys, st⟩ := pr
            rw [hrest] at h
            simp only [Option.some.injEq, Except.ok.injEq, Prod.mk.injEq] at h
            obtain ⟨hxs, hstop⟩ := h
            subst hxs; subst hstop
            simp only [List.length_cons, inc_times, hinc]
            exact ih cur' ys st hrest

/-- The cursor reached from `first()` by `k ≤ n` single steps. -/
theorem inc_times_first (B : Sequence κ α) (n : Int) (hmax : n ≤ DIST_MAX) :
    ∀ (k j : Nat), ((j + k : Nat) : Int) ≤ n →
      inc_times { base_ := B, count_ := n } k
          { base_cur := B.cursor_at (stepped_position B n j), length := n - j }
        = .ok { base_cur := B.cursor_at (stepped_position B n (j + k)),
                length := n - (j + k : Nat) } := by
  intro k
  induction k with
  | zero => intro j _; simp [inc_times]
  | succ k ih =>
    intro j hle
    have hmin := DIST_MIN_neg
    push_cast at hle
    have hsub : checked_sub (n - (j : Int)) 1 = .ok (n - ((j + 1 : Nat) : Int)) := by
      have h := checked_sub_ok (a := n - (j : Int)) (b := 1) (by omega) (by omega)
      rw [h]; push_cast; congr 1; omega
    have hstep : inc { base_ := B, count_ := n }
        { base_cur := B.cursor_at (stepped_position B n j), length := n - j }
        = .ok { base_cur := B.cursor_at (stepped_position B n (j + 1)),
                length := n - ((j + 1 : Nat) : Int) } := by
      by_cases hmp : B.multipass_sequence = true
      · simp [inc, hsub, hmp, stepped_position, Sequence.cursor_at]
      · by_cases hpos : n - ((j + 1 : Nat) : Int) > 0
        · have e1 : min j (n.toNat - 1) = j := by push_cast at hpos; omega
          have e2 : min (j + 1) (n.toNat - 1) = j + 1 := by push_cast at hpos; omega
          simp only [inc, hsub, hmp, stepped_position, e1, e2, Sequence.cursor_at,
            Bool.false_eq_true, if_false, if_pos hpos]
        · have e1 : min j (n.toNat - 1) = min (j + 1) (n.toNat - 1) := by
            push_cast at hpos; omega
          simp only [inc, hsub, hmp, stepped_position, e1, Bool.false_eq_true, if_false,
            if_neg hpos]
    have e2 : j + 1 + k = j + (k + 1) := by omega
    simp only [inc_times, hstep]
    rw [ih (j + 1) (by push_cast; omega), e2]

end take_adaptor

/-! ## The bulk traversal against the generic loop -/

namespace take_adaptor

variable {κ α : Type}

/-- With a countdown `len ≥ 1`, the base's loop under the counting lambda and
the generic loop over the adaptor's operations make the same calls of the
caller's predicate; the adaptor's final adjustment of the base cursor turns the
result of the first into the result of the second. -/
theorem base_loop_matches_generic {π : Type} (B : Sequence κ α) (n : Int)
    (pred : π → α → Bool × π) :
    ∀ (fuel fuel' : Nat) (cur : κ) (p : π) (len : Int),
      1 ≤ len → len ≤ DIST_MAX → len ≤ fuel → len + 1 ≤ fuel' →
      ∃ bc p' len',
        B.for_each_while_from (counting_pred pred) fuel cur (p, len) = some (bc, (p', len')) ∧
        generic_for_each_while_from { base_ := B, count_ := n } pred fuel'
            { base_cur := cur, length := len } p
          = some (.ok
              (if B.multipass_sequence then
                if len' = 0 then ({ base_cur := B.inc bc, length := len' }, p')
                else ({ base_cur := bc, length := len' }, p')
              else ({ base_cur := bc, length := len' }, p'))) := by
  intro fuel
  induction fuel with
  | zero => intro fuel' cur p len h1 _ h3 _; simp at h3; omega
  | succ f ih =>
    intro fuel' cur p len h1 hmax hf hf'
    obtain ⟨g, rfl⟩ : ∃ g, fuel' = g + 1 := ⟨fuel' - 1, by omega⟩
    have hmin := DIST_MIN_neg
    have hlen0 : ¬ len = 0 := by omega
    have hlenpos : ¬ len ≤ 0 := by omega
    by_cases hbl : B.is_last cur = true
    · refine ⟨cur, p, len, by simp [Sequence.for_each_while_from, hbl], ?_⟩
      simp [generic_for_each_while_from, is_last, hbl, hlen0]
    · have hnl : is_last { base_ := B, count_ := n } { base_cur := cur, length := len }
          = false := by
        simp [is_last, hbl, hlenpos]
      cases hq : pred p (B.read_at cur) with
      | mk b p' =>
        cases b with
        | false =>
          refine ⟨cur, p', len, by simp [Sequence.for_each_while_from, hbl, counting_pred, hq],
            ?_⟩
          simp [generic_for_each_while_from, hnl, read_at, hq, hlen0]
        | true =>
          have hsub : checked_sub len 1 = .ok (len - 1) := checked_sub_ok (by omega) (by omega)
          by_cases hpos : len - 1 > 0
          · obtain ⟨bc, q, len', hbase, hgen⟩ :=
              ih g (B.inc cur) p' (len - 1) (by omega) (by omega) (by push_cast at hf; omega)
                (by push_cast at hf'; omega)
            have hinc : inc { base_ := B, count_ := n } { base_cur := cur, length := len }
                = .ok { base_cur := B.inc cur, length := len - 1 } := by
              by_cases hmp : B.multipass_sequence = true
              · simp only [inc, hsub, hmp, if_true]
              · simp only [inc, hsub, hmp, Bool.false_eq_true, if_false, if_pos hpos]
            refine ⟨bc, q, len', ?_, ?_⟩
            · simp only [Sequence.for_each_while_from, hbl, counting_pred, hq,
                Bool.false_eq_true, if_false, decide_eq_true hpos]
              exact hbase
            · simp only [generic_for_each_while_from, hnl, read_at, hq, hinc,
                Bool.false_eq_true, if_false]
              exact hgen
          · have hone : len - 1 = 0 := by omega
            obtain ⟨g', rfl⟩ : ∃ g', g = g' + 1 := ⟨g - 1, by push_cast at hf'; omega⟩
            refine ⟨cur, p', 0, ?_, ?_⟩
            · simp [Sequence.for_each_while_from, hbl, counting_pred, hq, hone]
            · by_cases hmp : B.multipass_sequence = true
              · have hinc : inc { base_ := B, count_ := n } { base_cur := cur, length := len }
                    = .ok { base_cur := B.inc cur, length := 0 } := by
                  simp only [inc, hsub, hmp, if_true, hone]
                have hl0 : is_last { base_ := B, count_ := n }
                    { base_cur := B.inc cur, length := 0 } = true := by simp [is_last]
                simp only [generic_for_each_while_from, hnl, read_at, hq, hinc, hl0, hmp,
                  Bool.false_eq_true, if_false, if_true]
              · have hinc : inc { base_ := B, count_ := n } { base_cur := cur, length := len }
                    = .ok { base_cur := cur, length := 0 } := by
                  simp only [inc, hsub, hmp, Bool.false_eq_true, if_false, if_neg hpos]
                  rw [hone]
                have hl0 : is_last { base_ := B, count_ := n }
                    { base_cur := cur, length := 0 } = true := by simp [is_last]
                simp only [generic_for_each_while_from, hnl, read_at, hq, hinc, hl0, hmp,
                  Bool.false_eq_true, if_false, if_true]

end take_adaptor

/-! ## Counting the calls of the base's `inc` -/

namespace Sequence

variable {κ α : Type}

theorem cursor_at_with_inc_count (B : Sequence κ α) :
    ∀ k, B.with_inc_count.cursor_at k = (B.cursor_at k, k) := by
  intro k
  induction k with
  | zero => rfl
  | succ k ih => simp only [cursor_at, ih]; rfl

theorem has_count_with_inc_count (B : Sequence κ α) (N : Nat) (hN : B.has_count N) :
    B.with_inc_count.has_count N := by
  refine ⟨fun k hk => ?_, ?_⟩
  · rw [cursor_at_with_inc_count]; exact hN.1 k hk
  · rw [cursor_at_with_inc_count]; exact hN.2

theorem elements_from_with_inc_count (B : Sequence κ α) :
    ∀ m k, B.with_inc_count.elements_from k m = B.elements_from k m := by
  intro m
  induction m with
  | zero => intro k; rfl
  | succ m ih =>
    intro k
    simp only [elements_from, ih, cursor_at_with_inc_count]
    rfl

end Sequence

/-! ## The countdown of the bulk traversal -/

namespace take_adaptor

variable {κ α : Type}

/-- Along the base's loop under the counting lambda, the countdown drops by
one for every element the caller's predicate accepts, and the predicate is
invoked on at most one element more than it accepts. -/
theorem base_loop_countdown {π : Type} (B : Sequence κ α) (pred : π → α → Bool × π) :
    ∀ (fuel : Nat) (cur : κ) (p : π) (inv acc : Nat) (len : Int),
      1 ≤ len → len ≤ fuel →
      ∃ bc p' inv' acc' len',
        B.for_each_while_from (counting_pred (tallying pred)) fuel cur ((p, inv, acc), len)
          = some (bc, ((p', inv', acc'), len')) ∧
        len' + acc' = len + acc ∧
        (inv' + acc = inv + acc' ∨ inv' + acc = inv + acc' + 1) := by
  intro fuel
  induction fuel with
  | zero => intro cur p inv acc len h1 h2; simp at h2; omega
  | succ f ih =>
    intro cur p inv acc len h1 hf
    by_cases hbl : B.is_last cur = true
    · exact ⟨cur, p, inv, acc, len, by simp [Sequence.for_each_while_from, hbl], rfl,
        Or.inl rfl⟩
    · cases hq : pred p (B.read_at cur) with
      | mk b p' =>
        cases b with
        | false =>
          refine ⟨cur, p', inv + 1, acc, len, ?_, rfl, Or.inr (by omega)⟩
          simp [Sequence.for_each_while_from, hbl, counting_pred, tallying, hq]
        | true =>
          by_cases hpos : len - 1 > 0
          · obtain ⟨bc, q, inv', acc', len', hbase, hlen, hinv⟩ :=
              ih (B.inc cur) p' (inv + 1) (acc + 1) (len - 1) (by omega)
                (by push_cast at hf; omega)
            refine ⟨bc, q, inv', acc', len', ?_, by push_cast at hlen; omega, by omega⟩
            simp only [Sequence.for_each_while_from, hbl, counting_pred, tallying, hq,
              Bool.false_eq_true, if_false, decide_eq_true hpos]
            exact hbase
          · have hone : len - 1 = 0 := by omega
            refine ⟨cur, p', inv + 1, acc + 1, 0, ?_, by push_cast; omega, Or.inl (by omega)⟩
            simp [Sequence.for_each_while_from, hbl, counting_pred, tallying, hq, hone]

end take_adaptor

/-! ## Jumps against repeated steps, and the position of a cursor -/

namespace take_adaptor

variable {κ α : Type}

/-- Over a multipass base, `k` single steps from any cursor apply the base's
`inc` `k` times and lower the length by `k`. -/
theorem inc_times_iterate (B : Sequence κ α) (n : Int) (hmp : B.multipass_sequence = true) :
    ∀ (k : Nat) (cur : cursor_type κ), cur.length ≤ DIST_MAX → DIST_MIN ≤ cur.length - k →
      inc_times { base_ := B, count_ := n } k cur
        = .ok { base_cur := Nat.iterate B.inc k cur.base_cur, length := cur.length - k } := by
  intro k
  induction k with
  | zero => intro cur _ _; simp [inc_times]
  | succ k ih =>
    intro cur hhi hlo
    push_cast at hlo
    have hstep := inc_multipass B n cur hmp (by omega) (by omega)
    simp only [inc_times, hstep]
    rw [ih _ (by simp only; omega) (by simp only; omega)]
    simp only [Function.iterate_succ_apply, Nat.cast_add, Nat.cast_one]
    congr 2
    omega

/-- The step `dec` applied `k` times applies the base's `dec` `k` times and
raises the length by `k`. -/
theorem dec_times_iterate (B : Sequence κ α) (n : Int) :
    ∀ (k : Nat) (cur : cursor_type κ), DIST_MIN ≤ cur.length → cur.length + k ≤ DIST_MAX →
      dec_times { base_ := B, count_ := n } k cur
        = .ok { base_cur := Nat.iterate B.dec k cur.base_cur, length := cur.length + k } := by
  intro k
  induction k with
  | zero => intro cur _ _; simp [dec_times]
  | succ k ih =>
    intro cur hlo hhi
    push_cast at hhi
    have hstep := dec_ok B n cur (by omega) (by omega)
    simp only [dec_times, hstep]
    rw [ih _ (by simp only; omega) (by simp only; omega)]
    simp only [Function.iterate_succ_apply, Nat.cast_add, Nat.cast_one]
    congr 2
    omega

end take_adaptor

namespace Sequence

theorem of_list_jump_lawful (xs : List Int) : (of_list xs).jump_lawful := by
  intro c
  refine ⟨fun m => ?_, fun m => ?_, fun j k => ?_⟩
  · induction m with
    | zero => simp [of_list]
    | succ m ih =>
      rw [Function.iterate_succ_apply', ← ih]
      simp only [of_list]; push_cast; omega
  · induction m with
    | zero => simp [of_list]
    | succ m ih =>
      rw [Function.iterate_succ_apply', ← ih]
      simp only [of_list]; push_cast; omega
  · simp only [of_list]; omega

theorem of_list_position_lawful (xs : List Int) : (of_list xs).position_lawful (fun i => i) := by
  refine ⟨rfl, fun c => ⟨rfl, fun _ => rfl, fun _ k => rfl⟩⟩

end Sequence

/-! ## The claims -/

/-- C1: for a finite base with `N` elements and a count `n ≥ 0`, `take(s, n)`
is built, and the caller's loop `first / is_last / read_at / inc` over it ends
(any fuel above `min n N` suffices) having read exactly the first `min n N`
elements of the base in the base's order, at a cursor where `is_last` holds;
the number of elements read is `min n N` (hence `N` when `n > N`). -/
theorem take_traverse_yields_first_elements {κ α : Type} (B : Sequence κ α) (N : Nat) (n : Int)
    (fuel : Nat) (hN : B.has_count N) (hn : 0 ≤ n) (hmax : n ≤ DIST_MAX)
    (hfuel : min n.toNat N < fuel) :
    ∃ t stop, take B n = .ok t ∧
      t.traverse fuel = some (.ok ((B.elements N).take n.toNat, stop)) ∧
      t.is_last stop = true ∧
      ((B.elements N).take n.toNat).length = min n.toNat N ∧
      (B.elements N).take n.toNat = B.elements (min n.toNat N) := by
  have htake : (B.elements N).take n.toNat = B.elements_from 0 (min n.toNat N) :=
    Sequence.take_elements_from B n.toNat N 0
  obtain ⟨stop, hrun, hstop⟩ :=
    take_adaptor.traverse_from_position B (min n.toNat N) n
      (Sequence.has_count_view_count B N n hN hn) hmax (min n.toNat N) 0 fuel
      (take_adaptor.first { base_ := B, count_ := n }) (by omega) hfuel
      (by simp [take_adaptor.first]) (by intro _; rfl)
  refine ⟨{ base_ := B, count_ := n }, stop, take_ok B n hn hmax, ?_, hstop, ?_, ?_⟩
  · rw [htake]; exact hrun
  · rw [htake, Sequence.length_elements_from]
  · rw [htake]; rfl

/-- C1, the scenario of the specification: `take([1,2,3,4,5], 3)` is visited
in the order `1, 2, 3`, after which `is_last` is true. -/
theorem take_traverse_yields_first_elements_witness :
    (Sequence.of_list [1, 2, 3, 4, 5]).has_count 5 ∧
    ∃ t stop, take (Sequence.of_list [1, 2, 3, 4, 5]) 3 = .ok t ∧
      t.traverse 4 = some (.ok ([1, 2, 3], stop)) ∧ t.is_last stop = true := by
  refine ⟨by decide, ?_⟩
  obtain ⟨t, stop, h1, h2, h3, _⟩ :=
    take_traverse_yields_first_elements (Sequence.of_list [1, 2, 3, 4, 5]) 5 3 4
      (by decide) (by decide) (by decide) (by decide)
  have hl : ((Sequence.of_list [1, 2, 3, 4, 5]).elements 5).take (3 : Int).toNat = [1, 2, 3] := by
    decide
  rw [hl] at h2
  exact ⟨t, stop, h1, h2, h3⟩

/-- C2: `size()` of `take(s, n)` is `min(n, size(s))` for a sized base (one that
is not declared infinite), and exactly `n` for an infinite base, whatever `n`
is; in both cases the `requires` clause of `size` is met. -/
theorem take_size_eq {κ α : Type} (B : Sequence κ α) (n : Int) :
    (B.sized = true → B.infinite = false →
      take_adaptor.size_requires { base_ := B, count_ := n } = true ∧
      take_adaptor.size { base_ := B, count_ := n } = min n B.size) ∧
    (B.infinite = true →
      take_adaptor.size_requires { base_ := B, count_ := n } = true ∧
      take_adaptor.size { base_ := B, count_ := n } = n) := by
  refine ⟨fun hs hi => ⟨?_, ?_⟩, fun hi => ⟨?_, ?_⟩⟩
  · simp [take_adaptor.size_requires, hs]
  · simp [take_adaptor.size, hi, min_comm]
  · simp [take_adaptor.size_requires, hi]
  · simp [take_adaptor.size, hi]

/-- C2 at a three-element container with `n = 5` and `n = 2`, and at the
unbounded integers with `n = 4`. -/
theorem take_size_eq_witness :
    take_adaptor.size { base_ := Sequence.of_list [1, 2, 3], count_ := 5 } = min 5 3 ∧
    take_adaptor.size { base_ := Sequence.of_list [1, 2, 3], count_ := 2 } = min 2 3 ∧
    take_adaptor.size { base_ := Sequence.ints 10, count_ := 4 } = 4 :=
  ⟨((take_size_eq (Sequence.of_list [1, 2, 3]) 5).1 rfl rfl).2,
   ((take_size_eq (Sequence.of_list [1, 2, 3]) 2).1 rfl rfl).2,
   ((take_size_eq (Sequence.ints 10) 4).2 rfl).2⟩

/-- C3: `is_last(cur)` is true exactly when `cur.length <= 0` or the base's
`is_last` holds at `cur.base_cur`; either reason alone suffices, and a
negative length ends the view just as zero does. -/
theorem take_is_last_iff {κ α : Type} (self : take_adaptor κ α) (cur : cursor_type κ) :
    (self.is_last cur = true ↔
      (cur.length ≤ 0 ∨ self.base_.is_last cur.base_cur = true)) ∧
    (self.is_last cur = false ↔
      (0 < cur.length ∧ self.base_.is_last cur.base_cur = false)) := by
  constructor
  · simp [take_adaptor.is_last]
  · simp [take_adaptor.is_last]

/-- C4: for a count representable in `distance_t`, `take(s, count)` with
`count < 0` ends in the fatal error for a negative argument (so no adaptor is
returned), and with `count >= 0` returns an adaptor whose base is `s` and
whose `first()` cursor has length `count`. -/
theorem take_negative_fatal_else_adaptor {κ α : Type} (s : Sequence κ α) (count : Int)
    (hrep : in_distance_t count = true) :
    (count < 0 → take s count = .error Fatal.negative_argument ∧
      ∀ t, take s count ≠ .ok t) ∧
    (0 ≤ count → ∃ t, take s count = .ok t ∧ t.base_ = s ∧ t.first.length = count) := by
  have hcast : checked_cast count = .ok count := by simp [checked_cast, hrep]
  constructor
  · intro hneg
    have hfatal : take s count = .error Fatal.negative_argument := by
      simp [take, hcast, hneg]
    exact ⟨hfatal, fun t ht => by rw [hfatal] at ht; cases ht⟩
  · intro hpos
    refine ⟨{ base_ := s, count_ := count }, ?_, rfl, rfl⟩
    simp [take, hcast, not_lt.mpr hpos]

/-- C4 at the counts `-1` and `3` over a three-element container. -/
theorem take_negative_fatal_else_adaptor_witness :
    in_distance_t (-1) = true ∧ in_distance_t 3 = true ∧
    take (Sequence.of_list [1, 2, 3]) (-1) = .error Fatal.negative_argument ∧
    ∃ t, take (Sequence.of_list [1, 2, 3]) 3 = .ok t ∧
      t.base_ = Sequence.of_list [1, 2, 3] ∧ t.first.length = 3 :=
  ⟨by decide, by decide,
   ((take_negative_fatal_else_adaptor (Sequence.of_list [1, 2, 3]) (-1) (by decide)).1
     (by decide)).1,
   (take_negative_fatal_else_adaptor (Sequence.of_list [1, 2, 3]) 3 (by decide)).2 (by decide)⟩

/-- C5: `take(s, 0)` is built for every base, empty or not, and is exhausted at
once: `is_last(first())` is true, and `for_each_while(pred)` returns the cursor
`first()` with the predicate's state untouched (the predicate was not invoked)
whatever fuel the base's loop is given, zero included (the base's
`for_each_while`, and with it the base's `is_last`, `read_at` and `inc`, is not
run): the result is the same over any base with the same `first`. -/
theorem take_zero_exhausted_at_once {κ α : Type} (s : Sequence κ α) :
    ∃ t, take s 0 = .ok t ∧ t.is_last t.first = true ∧
      ∀ (π : Type) (pred : π → α → Bool × π) (fuel : Nat) (p : π),
        t.for_each_while pred fuel p = some (t.first, p) ∧
        t.first = { base_cur := s.first, length := 0 } ∧
        ∀ (s' : Sequence κ α), s'.first = s.first →
          take_adaptor.for_each_while { base_ := s', count_ := 0 } pred fuel p
            = t.for_each_while pred fuel p := by
  refine ⟨{ base_ := s, count_ := 0 }, take_ok s 0 (le_refl 0) (le_of_lt DIST_MAX_pos), ?_, ?_⟩
  · simp [take_adaptor.is_last, take_adaptor.first]
  · intro π pred fuel p
    refine ⟨by simp [take_adaptor.for_each_while], rfl, ?_⟩
    intro s' hs'
    simp [take_adaptor.for_each_while, take_adaptor.first, hs']

/-- C5 at a three-element container, with a predicate that records every
element it is invoked on: nothing is recorded, and the empty container gives
the same result. -/
theorem take_zero_exhausted_at_once_witness :
    ∃ t, take (Sequence.of_list [1, 2, 3]) 0 = .ok t ∧ t.is_last t.first = true ∧
      t.for_each_while (fun (seen : List Int) x => (true, seen ++ [x])) 0 []
        = some ({ base_cur := 0, length := 0 }, []) ∧
      take_adaptor.for_each_while { base_ := Sequence.of_list [], count_ := 0 }
          (fun (seen : List Int) x => (true, seen ++ [x])) 0 []
        = t.for_each_while (fun (seen : List Int) x => (true, seen ++ [x])) 0 [] := by
  obtain ⟨t, h1, h2, h3⟩ := take_zero_exhausted_at_once (Sequence.of_list [1, 2, 3])
  obtain ⟨h4, h5, h6⟩ := h3 (List Int) (fun seen x => (true, seen ++ [x])) 0 []
  refine ⟨t, h1, h2, ?_, h6 (Sequence.of_list []) rfl⟩
  rw [h4, h5]; rfl

/-- C6: for a count `n > 0` and a view of `L = min(n, count_of(s))` elements,
the cursor `c` returned by `for_each_while(pred)` tells the stopping reasons
apart. If `pred` first answered false at view position `i < L`, then `c` is the
cursor of that element with length `n - i`: `is_last(c)` is false, `read_at(c)`
is that element, and the caller's loop from `c` reads the remaining `L - i`
elements. If all `n` elements were accepted (the count ran out), then
`c.length = 0`, `is_last(c)` is true and the caller's loop from `c` reads
nothing. -/
theorem for_each_while_stop_reasons {κ α π : Type} (B : Sequence κ α) (n : Int) (L : Nat)
    (pred : π → α → Bool × π) (p : π) (hn : 0 < n) (hmax : n ≤ DIST_MAX)
    (hL : B.view_count n L) :
    (∀ (i fuel fuel' : Nat), i < L →
      (∀ j, j < i → B.pred_result pred p j = true) → B.pred_result pred p i = false →
      i < fuel → L - i < fuel' →
      ∃ c stop,
        take_adaptor.for_each_while { base_ := B, count_ := n } pred fuel p
          = some (c, B.pred_state pred p (i + 1)) ∧
        c = { base_cur := B.cursor_at i, length := n - i } ∧
        take_adaptor.is_last { base_ := B, count_ := n } c = false ∧
        take_adaptor.read_at { base_ := B, count_ := n } c = B.read_at (B.cursor_at i) ∧
        take_adaptor.traverse_from { base_ := B, count_ := n } fuel' c
          = some (.ok (B.elements_from i (L - i), stop)) ∧
        (B.elements_from i (L - i)).length = L - i ∧
        take_adaptor.is_last { base_ := B, count_ := n } stop = true) ∧
    (∀ (fuel fuel' : Nat), (L : Int) = n →
      (∀ j, j < L → B.pred_result pred p j = true) → L ≤ fuel → 0 < fuel' →
      ∃ c,
        take_adaptor.for_each_while { base_ := B, count_ := n } pred fuel p
          = some (c, B.pred_state pred p L) ∧
        c.length = 0 ∧
        take_adaptor.is_last { base_ := B, count_ := n } c = true ∧
        take_adaptor.traverse_from { base_ := B, count_ := n } fuel' c
          = some (.ok ([], c))) := by
  have hne : ¬ n = 0 := by omega
  constructor
  · intro i fuel fuel' hi hacc hrej hfuel hfuel'
    have hLn := hL.1
    have hloop := take_adaptor.base_loop_stops_at_reject B n L pred p i hL hi hacc hrej
      i 0 fuel n (by omega) hfuel (by simp)
    have hlen : ¬ n - (i : Int) = 0 := by omega
    have hnl : take_adaptor.is_last { base_ := B, count_ := n }
        { base_cur := B.cursor_at i, length := n - i } = false := by
      simp only [take_adaptor.is_last, Bool.or_eq_false_iff, decide_eq_false_iff_not]
      exact ⟨by omega, hL.2.1 i hi⟩
    obtain ⟨stop, hrun, hstop⟩ := take_adaptor.traverse_from_position B L n hL hmax
      (L - i) i fuel' { base_cur := B.cursor_at i, length := n - i } (by omega) hfuel'
      rfl (fun _ => rfl)
    refine ⟨_, stop, ?_, rfl, hnl, rfl, hrun, Sequence.length_elements_from B _ _, hstop⟩
    simp only [take_adaptor.for_each_while, hne, if_false, Sequence.for_each_while,
      Sequence.cursor_at] at hloop ⊢
    have h0 : B.pred_state pred p 0 = p := rfl
    rw [h0] at hloop
    rw [hloop]
    by_cases hmp : B.multipass_sequence = true
    · simp [hmp, hlen]
    · simp [hmp]
  · intro fuel fuel' hfull hacc hfuel hfuel'
    have hLpos : 0 < L := by omega
    have hloop := take_adaptor.base_loop_stops_at_count B n L pred p hL hfull hacc
      (L - 1) 0 fuel n (by omega) (by omega) (by simp)
    obtain ⟨f, rfl⟩ : ∃ f, fuel' = f + 1 := ⟨fuel' - 1, by omega⟩
    simp only [take_adaptor.for_each_while, hne, if_false, Sequence.for_each_while,
      Sequence.cursor_at] at hloop ⊢
    have h0 : B.pred_state pred p 0 = p := rfl
    rw [h0] at hloop
    rw [hloop]
    by_cases hmp : B.multipass_sequence = true
    · refine ⟨{ base_cur := B.inc (B.cursor_at (L - 1)), length := 0 }, by simp [hmp], rfl,
        by simp [take_adaptor.is_last], by simp [take_adaptor.traverse_from, take_adaptor.is_last]⟩
    · refine ⟨{ base_cur := B.cursor_at (L - 1), length := 0 }, by simp [hmp], rfl,
        by simp [take_adaptor.is_last], by simp [take_adaptor.traverse_from, take_adaptor.is_last]⟩

/-- C6 at `take([1,2,3,4,5], 3)` with recording predicates. A predicate that
rejects the element `2` is invoked on `1, 2`, and the returned cursor sits at
`2` with length `2`, from where the caller's loop reads `2, 3`. A predicate
that accepts everything is invoked on `1, 2, 3`, and the returned cursor has
length `0`. -/
theorem for_each_while_stop_reasons_witness :
    (∃ c stop,
      take_adaptor.for_each_while { base_ := Sequence.of_list [1, 2, 3, 4, 5], count_ := 3 }
          (fun (seen : List Int) x => (decide (x < 2), seen ++ [x])) 2 []
        = some (c, [1, 2]) ∧
      c = { base_cur := 1, length := 2 } ∧
      take_adaptor.is_last { base_ := Sequence.of_list [1, 2, 3, 4, 5], count_ := 3 } c = false ∧
      take_adaptor.read_at { base_ := Sequence.of_list [1, 2, 3, 4, 5], count_ := 3 } c = 2 ∧
      take_adaptor.traverse_from { base_ := Sequence.of_list [1, 2, 3, 4, 5], count_ := 3 } 3 c
        = some (.ok ([2, 3], stop))) ∧
    (∃ c,
      take_adaptor.for_each_while { base_ := Sequence.of_list [1, 2, 3, 4, 5], count_ := 3 }
          (fun (seen : List Int) x => (true, seen ++ [x])) 3 []
        = some (c, [1, 2, 3]) ∧
      c.length = 0 ∧
      take_adaptor.is_last { base_ := Sequence.of_list [1, 2, 3, 4, 5], count_ := 3 } c = true) := by
  constructor
  · obtain ⟨c, stop, h1, h2, h3, h4, h5, _⟩ :=
      (for_each_while_stop_reasons (Sequence.of_list [1, 2, 3, 4, 5]) 3 3
        (fun (seen : List Int) x => (decide (x < 2), seen ++ [x])) []
        (by decide) (by decide) (by decide)).1 1 2 3
        (by decide) (by decide) (by decide) (by decide) (by decide)
    exact ⟨c, stop, h1, h2, h3, h4, h5⟩
  · obtain ⟨c, h1, h2, h3, _⟩ :=
      (for_each_while_stop_reasons (Sequence.of_list [1, 2, 3, 4, 5]) 3 3
        (fun (seen : List Int) x => (true, seen ++ [x])) []
        (by decide) (by decide) (by decide)).2 3 1
        (by decide) (by decide) (by decide) (by decide)
    exact ⟨c, h1, h2, h3⟩

/-- C7, evaluated at the three-element container `[1,2,3]` with count `5`:
`size()` is `3`, `last()` is the cursor `(3, 0)`, whereas three single steps
from `first()` end at `(3, 2)`; the two cursors are not equal. -/
theorem last_differs_from_stepped_first :
    take (Sequence.of_list [1, 2, 3]) 5
      = .ok { base_ := Sequence.of_list [1, 2, 3], count_ := 5 } ∧
    take_adaptor.last_requires { base_ := Sequence.of_list [1, 2, 3], count_ := 5 } = true ∧
    take_adaptor.size { base_ := Sequence.of_list [1, 2, 3], count_ := 5 } = 3 ∧
    take_adaptor.last { base_ := Sequence.of_list [1, 2, 3], count_ := 5 }
      = { base_cur := 3, length := 0 } ∧
    take_adaptor.inc_times { base_ := Sequence.of_list [1, 2, 3], count_ := 5 } 3
        (take_adaptor.first { base_ := Sequence.of_list [1, 2, 3], count_ := 5 })
      = .ok { base_cur := 3, length := 2 } ∧
    ({ base_cur := 3, length := 2 } : cursor_type Int) ≠ { base_cur := 3, length := 0 } := by
  refine ⟨rfl, rfl, rfl, rfl, rfl, by decide⟩

/-- C8: over a bidirectional base whose `dec` undoes `inc` at its first `k`
cursors (a base with at least `k` elements), for every count `n` of type
`distance_t` (in particular `n ≥ 0`) and with no overflow of the length, `k` steps of `inc` from `first()` followed by `k` steps
of `dec` give `first()` again: the base cursor is the base's first cursor and
the length is `n`. More generally, on any cursor whose length is a `distance_t`
value, `dec` undoes `inc` and `inc` undoes `dec` whenever the base's steps undo
each other at the base cursor and the length does not overflow. -/
theorem inc_then_dec_restores_first {κ α : Type} (B : Sequence κ α) (n : Int) (k : Nat)
    (hbidir : B.bidirectional_sequence = true) (hmax : n ≤ DIST_MAX)
    (hov : DIST_MIN ≤ n - k)
    (hlaw : ∀ j, j < k → B.dec (B.inc (B.cursor_at j)) = B.cursor_at j) :
    take_adaptor.dec_requires { base_ := B, count_ := n } = true ∧
    (∃ c, take_adaptor.inc_times { base_ := B, count_ := n } k
          (take_adaptor.first { base_ := B, count_ := n }) = .ok c ∧
        take_adaptor.dec_times { base_ := B, count_ := n } k c
          = .ok { base_cur := B.first, length := n }) ∧
    (∀ cur : cursor_type κ, in_distance_t cur.length = true → DIST_MIN ≤ cur.length - 1 →
      B.dec (B.inc cur.base_cur) = cur.base_cur →
      ∃ c, take_adaptor.inc { base_ := B, count_ := n } cur = .ok c ∧
        take_adaptor.dec { base_ := B, count_ := n } c = .ok cur) ∧
    (∀ cur : cursor_type κ, in_distance_t cur.length = true → cur.length + 1 ≤ DIST_MAX →
      B.inc (B.dec cur.base_cur) = cur.base_cur →
      ∃ c, take_adaptor.dec { base_ := B, count_ := n } cur = .ok c ∧
        take_adaptor.inc { base_ := B, count_ := n } c = .ok cur) := by
  have hmp := Sequence.multipass_of_bidirectional B hbidir
  refine ⟨hbidir, ?_, ?_, ?_⟩
  · refine ⟨{ base_cur := B.cursor_at k, length := n - k }, ?_, ?_⟩
    · have h := take_adaptor.inc_times_multipass B n hmp hmax k 0 (by simpa using hov)
      simpa [take_adaptor.first, Sequence.cursor_at] using h
    · exact take_adaptor.dec_times_back B n hmax k hov hlaw
  · intro cur hrep hlo hb
    simp only [in_distance_t, Bool.and_eq_true, decide_eq_true_eq] at hrep
    refine ⟨_, take_adaptor.inc_multipass B n cur hmp hlo (by omega), ?_⟩
    rw [take_adaptor.dec_ok B n _ (by simp only; omega) (by simp only; omega)]
    simp [hb]
  · intro cur hrep hhi hb
    simp only [in_distance_t, Bool.and_eq_true, decide_eq_true_eq] at hrep
    refine ⟨_, take_adaptor.dec_ok B n cur (by omega) hhi, ?_⟩
    rw [take_adaptor.inc_multipass B n _ hmp (by simp only; omega) (by simp only; omega)]
    simp [hb]

/-- C8 at `take([1,2,3,4,5], 3)` with two steps forward and two back. -/
theorem inc_then_dec_restores_first_witness :
    ∃ c, take_adaptor.inc_times { base_ := Sequence.of_list [1, 2, 3, 4, 5], count_ := 3 } 2
          (take_adaptor.first { base_ := Sequence.of_list [1, 2, 3, 4, 5], count_ := 3 })
          = .ok c ∧
        take_adaptor.dec_times { base_ := Sequence.of_list [1, 2, 3, 4, 5], count_ := 3 } 2 c
          = .ok { base_cur := 0, length := 3 } :=
  (inc_then_dec_restores_first (Sequence.of_list [1, 2, 3, 4, 5]) 3 2
    (by decide) (by decide) (by decide) (by decide)).2.1

/-- C9 fails as stated: in `take([1,2,3,4,5], 1)` the cursor reached from
`first()` by the jump `inc(cur, 3)`, or by three single steps, is at distance
`3` from `first()`, which exceeds the count `1`. -/
theorem distance_exceeds_count_outside_view :
    take_adaptor.random_access_requires
        { base_ := Sequence.of_list [1, 2, 3, 4, 5], count_ := 1 } = true ∧
    ∃ c d,
      take_adaptor.inc_offset { base_ := Sequence.of_list [1, 2, 3, 4, 5], count_ := 1 }
          (take_adaptor.first { base_ := Sequence.of_list [1, 2, 3, 4, 5], count_ := 1 }) 3
        = .ok c ∧
      take_adaptor.inc_times { base_ := Sequence.of_list [1, 2, 3, 4, 5], count_ := 1 } 3
          (take_adaptor.first { base_ := Sequence.of_list [1, 2, 3, 4, 5], count_ := 1 })
        = .ok c ∧
      take_adaptor.distance { base_ := Sequence.of_list [1, 2, 3, 4, 5], count_ := 1 }
          (take_adaptor.first { base_ := Sequence.of_list [1, 2, 3, 4, 5], count_ := 1 }) c
        = .ok d ∧
      ¬ (|d| ≤ 1) :=
  ⟨rfl, { base_cur := 3, length := -2 }, 3, rfl, rfl, rfl, by decide⟩

/-- C9, amended: over a random-access base that meets the requirements of the
concept on the positions of the view, for a count `n ≥ 0` and two cursors
obtained from `first()` or `last()` by steps that stay inside the view (`inc`
at a cursor that is not last, `dec` after the first position, jumps to
positions of the view), `distance` returns a value `d` with `|d| ≤ n`. -/
theorem distance_bounded_inside_view {κ α : Type} (B : Sequence κ α) (n : Int) (L : Nat)
    (hra : B.random_access_sequence = true) (hmax : n ≤ DIST_MAX)
    (hL : B.view_count n L) (hlaw : B.random_access_lawful L)
    (hsz : take_adaptor.last_requires { base_ := B, count_ := n } = true →
      take_adaptor.size { base_ := B, count_ := n } = (L : Int))
    (p₁ p₂ : Nat) (c₁ c₂ : cursor_type κ)
    (h₁ : take_adaptor.in_view { base_ := B, count_ := n } L p₁ c₁)
    (h₂ : take_adaptor.in_view { base_ := B, count_ := n } L p₂ c₂) :
    ∃ d, take_adaptor.distance { base_ := B, count_ := n } c₁ c₂ = .ok d ∧ |d| ≤ n := by
  obtain ⟨hp₁, hb₁, hl₁⟩ := take_adaptor.in_view_shape B n L hra hL hlaw hsz p₁ c₁ h₁
  obtain ⟨hp₂, hb₂, hl₂⟩ := take_adaptor.in_view_shape B n L hra hL hlaw hsz p₂ c₂ h₂
  have hLn := hL.1
  have hmin := DIST_MIN_add_DIST_MAX
  have hbd : B.distance c₁.base_cur c₂.base_cur = (p₂ : Int) - p₁ := by
    rw [hb₁, hb₂]; exact (hlaw.2.1 p₁ (by omega) p₂ (by omega)).2
  have hrange : DIST_MIN ≤ c₁.length - c₂.length ∧ c₁.length - c₂.length ≤ DIST_MAX := by
    rcases hl₁ with h | h <;> rcases hl₂ with h' | h' <;> constructor <;> omega
  have hsub : checked_sub c₁.length c₂.length = .ok (c₁.length - c₂.length) :=
    checked_sub_ok hrange.1 hrange.2
  refine ⟨min ((p₂ : Int) - p₁) (c₁.length - c₂.length), ?_, ?_⟩
  · simp [take_adaptor.distance, hsub, hbd]
  · rw [abs_le]
    rcases hl₁ with h | h <;> rcases hl₂ with h' | h' <;> constructor <;> omega

/-- C9, amended, at `take([1,2,3], 5)` with the cursors `last()` and `first()`:
the distance is defined and within the count `5`. -/
theorem distance_bounded_inside_view_witness :
    (Sequence.of_list [1, 2, 3]).view_count 5 3 ∧
    (Sequence.of_list [1, 2, 3]).random_access_lawful 3 ∧
    ∃ d, take_adaptor.distance { base_ := Sequence.of_list [1, 2, 3], count_ := 5 }
          (take_adaptor.last { base_ := Sequence.of_list [1, 2, 3], count_ := 5 })
          (take_adaptor.first { base_ := Sequence.of_list [1, 2, 3], count_ := 5 }) = .ok d ∧
      |d| ≤ 5 :=
  ⟨by decide, by decide,
   distance_bounded_inside_view (Sequence.of_list [1, 2, 3]) 5 3 rfl (by decide) (by decide)
     (by decide) (fun _ => rfl) 3 0 _ _ (take_adaptor.in_view.last rfl)
     take_adaptor.in_view.first⟩

/-- C10, evaluated at the three-element container `[1,2,3]` with count `5`:
`size()` is `3` and `distance(first(), last())` is `3`, but
`distance(last(), first())` is `-5`, neither `-size()` nor the negation of the
distance the other way round. -/
theorem distance_from_last_is_minus_count :
    take_adaptor.size { base_ := Sequence.of_list [1, 2, 3], count_ := 5 } = 3 ∧
    take_adaptor.distance { base_ := Sequence.of_list [1, 2, 3], count_ := 5 }
        (take_adaptor.first { base_ := Sequence.of_list [1, 2, 3], count_ := 5 })
        (take_adaptor.last { base_ := Sequence.of_list [1, 2, 3], count_ := 5 }) = .ok 3 ∧
    take_adaptor.distance { base_ := Sequence.of_list [1, 2, 3], count_ := 5 }
        (take_adaptor.last { base_ := Sequence.of_list [1, 2, 3], count_ := 5 })
        (take_adaptor.first { base_ := Sequence.of_list [1, 2, 3], count_ := 5 }) = .ok (-5) ∧
    (-5 : Int) ≠ -3 := by
  refine ⟨rfl, rfl, rfl, by decide⟩

/-- C11: over an infinite base (its `is_last` is never true) and for a count
`n ≥ 0`, the caller's loop over `take(s, n)` ends (any fuel above `n`
suffices) having read exactly the first `n` elements of the base in order; the
cursor at which it stops is the one reached by exactly `n` single steps,
`is_last` is false after every smaller number of steps, and `size()` is `n`. -/
theorem take_of_infinite_base_yields_n {κ α : Type} (B : Sequence κ α) (n : Int) (fuel : Nat)
    (hinf : B.infinite = true) (hnever : ∀ k, B.is_last (B.cursor_at k) = false)
    (hn : 0 ≤ n) (hmax : n ≤ DIST_MAX) (hfuel : n.toNat < fuel) :
    ∃ t stop, take B n = .ok t ∧
      t.traverse fuel = some (.ok (B.elements n.toNat, stop)) ∧
      (B.elements n.toNat).length = n.toNat ∧
      t.inc_times n.toNat t.first = .ok stop ∧
      t.is_last stop = true ∧
      (∀ k, k < n.toNat → ∃ c, t.inc_times k t.first = .ok c ∧ t.is_last c = false) ∧
      t.size = n := by
  have hL : B.view_count n n.toNat :=
    ⟨by omega, fun k _ => hnever k, fun h => absurd h (by omega)⟩
  obtain ⟨stop, hrun, hstop⟩ :=
    take_adaptor.traverse_from_position B n.toNat n hL hmax n.toNat 0 fuel
      (take_adaptor.first { base_ := B, count_ := n }) (by omega) hfuel
      (by simp [take_adaptor.first]) (by intro _; rfl)
  have hsteps := take_adaptor.traverse_from_stop _ fuel _ _ stop hrun
  rw [Sequence.length_elements_from] at hsteps
  refine ⟨{ base_ := B, count_ := n }, stop, take_ok B n hn hmax, hrun,
    Sequence.length_elements_from B _ _, hsteps, hstop, ?_, ?_⟩
  · intro k hk
    have h := take_adaptor.inc_times_first B n hmax k 0 (by omega)
    have h0 : take_adaptor.stepped_position B n 0 = 0 := by
      simp [take_adaptor.stepped_position]
    simp only [h0, Nat.zero_add, Nat.cast_zero, sub_zero] at h
    refine ⟨_, h, ?_⟩
    simp only [take_adaptor.is_last, Bool.or_eq_false_iff, decide_eq_false_iff_not]
    exact ⟨by omega, hnever _⟩
  · simp [take_adaptor.size, hinf]

/-- C11, the scenario of the specification: the integers counted up from `10`,
taken `4` at a time, are visited as `10, 11, 12, 13`, and `size()` is `4`. -/
theorem take_of_infinite_base_yields_n_witness :
    ∃ t stop, take (Sequence.ints 10) 4 = .ok t ∧
      t.traverse 5 = some (.ok ([10, 11, 12, 13], stop)) ∧
      t.inc_times 4 t.first = .ok stop ∧ t.is_last stop = true ∧ t.size = 4 := by
  obtain ⟨t, stop, h1, h2, _, h4, h5, _, h7⟩ :=
    take_of_infinite_base_yields_n (Sequence.ints 10) 4 5 rfl (fun _ => rfl)
      (by decide) (by decide) (by decide)
  exact ⟨t, stop, h1, h2, h4, h5, h7⟩

/-- C12: over a random-access sized base that meets the requirements of the
concept on its first `n` positions, and for `0 ≤ n ≤ size(s)`, `last()` of
`take(s, n)` is the cursor reached by `n` single steps of `inc` from `first()`:
its base cursor is `n` positions after the base's first cursor and its length
is `0`. -/
theorem last_eq_stepped_first_within_size {κ α : Type} (B : Sequence κ α) (n : Int)
    (hra : B.random_access_sequence = true) (hsized : B.sized = true)
    (hn : 0 ≤ n) (hmax : n ≤ DIST_MAX) (hle : n ≤ B.size)
    (hlaw : B.random_access_lawful n.toNat) :
    take_adaptor.last_requires { base_ := B, count_ := n } = true ∧
    take_adaptor.inc_times { base_ := B, count_ := n } n.toNat
        (take_adaptor.first { base_ := B, count_ := n })
      = .ok (take_adaptor.last { base_ := B, count_ := n }) ∧
    take_adaptor.last { base_ := B, count_ := n }
      = { base_cur := B.cursor_at n.toNat, length := 0 } ∧
    B.cursor_at n.toNat = B.inc_offset B.first n := by
  have hmp := B.multipass_of_random_access hra
  have hcast : ((n.toNat : Nat) : Int) = n := Int.toNat_of_nonneg hn
  have hsize : take_adaptor.size { base_ := B, count_ := n } = n := by
    unfold take_adaptor.size
    split
    · rfl
    · exact min_eq_right hle
  have hpos : B.inc_offset B.first n = B.cursor_at n.toNat := by
    have h := B.position_eq_cursor_at n.toNat hlaw n.toNat (le_refl _)
    unfold Sequence.position at h
    rw [hcast] at h
    exact h
  have hlast : take_adaptor.last { base_ := B, count_ := n }
      = { base_cur := B.cursor_at n.toNat, length := 0 } := by
    simp only [take_adaptor.last, Sequence.next, hra, if_true, hsize, hpos]
  have hsteps := take_adaptor.inc_times_multipass B n hmp hmax n.toNat 0
    (by have := DIST_MIN_neg; simp only [Nat.zero_add]; omega)
  simp only [Nat.zero_add, Nat.cast_zero, sub_zero, hcast, sub_self, Sequence.cursor_at]
    at hsteps
  refine ⟨by simp [take_adaptor.last_requires, hra, hsized], ?_, hlast, hpos.symm⟩
  rw [hlast]
  exact hsteps

/-- C12, the scenario of the specification: on a five-element random-access
base, `last()` of `take(s, 3)` is the cursor reached by three single steps
from `first()`, namely the base cursor `3` with length `0`. -/
theorem last_eq_stepped_first_within_size_witness :
    (Sequence.of_list [1, 2, 3, 4, 5]).random_access_lawful 3 ∧
    take_adaptor.inc_times { base_ := Sequence.of_list [1, 2, 3, 4, 5], count_ := 3 } 3
        (take_adaptor.first { base_ := Sequence.of_list [1, 2, 3, 4, 5], count_ := 3 })
      = .ok (take_adaptor.last { base_ := Sequence.of_list [1, 2, 3, 4, 5], count_ := 3 }) ∧
    take_adaptor.last { base_ := Sequence.of_list [1, 2, 3, 4, 5], count_ := 3 }
      = { base_cur := 3, length := 0 } :=
  ⟨by decide,
   (last_eq_stepped_first_within_size (Sequence.of_list [1, 2, 3, 4, 5]) 3 rfl rfl
     (by decide) (by decide) (by decide) (by decide)).2.1,
   (last_eq_stepped_first_within_size (Sequence.of_list [1, 2, 3, 4, 5]) 3 rfl rfl
     (by decide) (by decide) (by decide) (by decide)).2.2.1⟩

/-- C13: over a base whose `for_each_while` is the standard loop, for a count
`n ≥ 0` and any predicate, the adaptor's `for_each_while` and the generic loop
built from the adaptor's own `first`, `is_last`, `read_at` and `inc` both return
(any fuel above `n` suffices), with an equal cursor (same base cursor, same
length) and the same final state of the predicate, whatever state the
predicate keeps; so the predicate is invoked on the same elements in the same
order. The base may be multipass or single-pass. -/
theorem for_each_while_matches_generic_loop {κ α π : Type} (B : Sequence κ α) (n : Int)
    (pred : π → α → Bool × π) (p : π) (fuel : Nat)
    (hn : 0 ≤ n) (hmax : n ≤ DIST_MAX) (hfuel : n.toNat < fuel) :
    ∃ c p',
      take_adaptor.for_each_while { base_ := B, count_ := n } pred fuel p = some (c, p') ∧
      take_adaptor.generic_for_each_while { base_ := B, count_ := n } pred fuel p
        = some (.ok (c, p')) := by
  obtain ⟨g, rfl⟩ : ∃ g, fuel = g + 1 := ⟨fuel - 1, by omega⟩
  by_cases h0 : n = 0
  · subst h0
    refine ⟨take_adaptor.first { base_ := B, count_ := 0 }, p, ?_, ?_⟩
    · simp [take_adaptor.for_each_while]
    · simp [take_adaptor.generic_for_each_while, take_adaptor.generic_for_each_while_from,
        take_adaptor.is_last, take_adaptor.first]
  · obtain ⟨bc, p', len', hbase, hgen⟩ :=
      take_adaptor.base_loop_matches_generic B n pred (g + 1) (g + 1) B.first p n
        (by omega) hmax (by push_cast; omega) (by push_cast; omega)
    by_cases hmp : B.multipass_sequence = true
    · by_cases hl : len' = 0
      · refine ⟨{ base_cur := B.inc bc, length := len' }, p', ?_, ?_⟩
        · simp [take_adaptor.for_each_while, h0, Sequence.for_each_while, hbase, hmp, hl]
        · simpa [take_adaptor.generic_for_each_while, take_adaptor.first, hmp, hl] using hgen
      · refine ⟨{ base_cur := bc, length := len' }, p', ?_, ?_⟩
        · simp [take_adaptor.for_each_while, h0, Sequence.for_each_while, hbase, hmp, hl]
        · simpa [take_adaptor.generic_for_each_while, take_adaptor.first, hmp, hl] using hgen
    · refine ⟨{ base_cur := bc, length := len' }, p', ?_, ?_⟩
      · simp [take_adaptor.for_each_while, h0, Sequence.for_each_while, hbase, hmp]
      · simpa [take_adaptor.generic_for_each_while, take_adaptor.first, hmp] using hgen

/-- C13 at `take([1,2,3,4,5], 3)` with predicates that record the elements
they are invoked on. Over the container, with a predicate that rejects `2`,
both loops return the cursor at index `1` with length `2`, the predicate
having seen `1, 2`. Over the single-pass form of the container, with a
predicate that accepts everything, both return the cursor at index `2` with
length `0`, the predicate having seen `1, 2, 3`. -/
theorem for_each_while_matches_generic_loop_witness :
    (take_adaptor.for_each_while { base_ := Sequence.of_list [1, 2, 3, 4, 5], count_ := 3 }
          (fun (seen : List Int) x => (decide (x < 2), seen ++ [x])) 4 []
        = some ({ base_cur := 1, length := 2 }, [1, 2]) ∧
      take_adaptor.generic_for_each_while
          { base_ := Sequence.of_list [1, 2, 3, 4, 5], count_ := 3 }
          (fun (seen : List Int) x => (decide (x < 2), seen ++ [x])) 4 []
        = some (.ok ({ base_cur := 1, length := 2 }, [1, 2]))) ∧
    (take_adaptor.for_each_while
          { base_ := (Sequence.of_list [1, 2, 3, 4, 5]).single_pass_only, count_ := 3 }
          (fun (seen : List Int) x => (true, seen ++ [x])) 4 []
        = some ({ base_cur := 2, length := 0 }, [1, 2, 3]) ∧
      take_adaptor.generic_for_each_while
          { base_ := (Sequence.of_list [1, 2, 3, 4, 5]).single_pass_only, count_ := 3 }
          (fun (seen : List Int) x => (true, seen ++ [x])) 4 []
        = some (.ok ({ base_cur := 2, length := 0 }, [1, 2, 3]))) := by
  constructor
  · obtain ⟨c, p', h1, h2⟩ :=
      for_each_while_matches_generic_loop (Sequence.of_list [1, 2, 3, 4, 5]) 3
        (fun (seen : List Int) x => (decide (x < 2), seen ++ [x])) [] 4
        (by decide) (by decide) (by decide)
    have hval : take_adaptor.for_each_while
        { base_ := Sequence.of_list [1, 2, 3, 4, 5], count_ := 3 }
        (fun (seen : List Int) x => (decide (x < 2), seen ++ [x])) 4 []
        = some ({ base_cur := 1, length := 2 }, [1, 2]) := by rfl
    rw [hval] at h1
    simp only [Option.some.injEq, Prod.mk.injEq] at h1
    rw [← h1.1, ← h1.2] at h2
    exact ⟨hval, h2⟩
  · obtain ⟨c, p', h1, h2⟩ :=
      for_each_while_matches_generic_loop (Sequence.of_list [1, 2, 3, 4, 5]).single_pass_only 3
        (fun (seen : List Int) x => (true, seen ++ [x])) [] 4
        (by decide) (by decide) (by decide)
    have hval : take_adaptor.for_each_while
        { base_ := (Sequence.of_list [1, 2, 3, 4, 5]).single_pass_only, count_ := 3 }
        (fun (seen : List Int) x => (true, seen ++ [x])) 4 []
        = some ({ base_cur := 2, length := 0 }, [1, 2, 3]) := by rfl
    rw [hval] at h1
    simp only [Option.some.injEq, Prod.mk.injEq] at h1
    rw [← h1.1, ← h1.2] at h2
    exact ⟨hval, h2⟩

/-- C14: the calls of the base's `inc` are counted by running the adaptor over
the base with a call counter next to its cursor. Over a base that is not
multipass, `inc` of the adaptor calls the base's `inc` (once) exactly when the
decremented length is still `> 0`. Consequently, over a base with `N`
elements, the caller's loop over `take(s, n)` from `first()` to exhaustion
reads the first `min(n, N)` elements and calls the base's `inc` exactly
`min(N, n - 1)` times when the base is single-pass (`0` times for `n = 0`, the
subtraction being truncated), and `min(N, n)` times when it is multipass. -/
theorem single_pass_inc_calls_base_while_length_positive {κ α : Type} (B : Sequence κ α)
    (N : Nat) (n : Int) (fuel : Nat) (hN : B.has_count N) (hn : 0 ≤ n) (hmax : n ≤ DIST_MAX)
    (hfuel : min n.toNat N < fuel) :
    (B.multipass_sequence = false →
      ∀ cur : cursor_type (κ × Nat), in_distance_t (cur.length - 1) = true →
        ∃ c, take_adaptor.inc { base_ := B.with_inc_count, count_ := n } cur = .ok c ∧
          c.length = cur.length - 1 ∧ c.base_cur.1 = (if 0 < cur.length - 1 then
            B.inc cur.base_cur.1 else cur.base_cur.1) ∧
          c.base_cur.2 = (if 0 < cur.length - 1 then cur.base_cur.2 + 1 else cur.base_cur.2)) ∧
    ∃ stop,
      take_adaptor.traverse { base_ := B.with_inc_count, count_ := n } fuel
        = some (.ok (B.elements (min n.toNat N), stop)) ∧
      stop.base_cur.2
        = (if B.multipass_sequence then min N n.toNat else min N (n.toNat - 1)) := by
  constructor
  · intro hsp cur hrep
    have hsp' : B.with_inc_count.multipass_sequence = false := hsp
    have hsub : checked_sub cur.length 1 = .ok (cur.length - 1) := by
      simp [checked_sub, hrep]
    by_cases hpos : cur.length - 1 > 0
    · refine ⟨{ base_cur := B.with_inc_count.inc cur.base_cur, length := cur.length - 1 },
        ?_, rfl, ?_, ?_⟩
      · simp only [take_adaptor.inc, hsub, hsp', Bool.false_eq_true, if_false, if_pos hpos]
      · simp only [gt_iff_lt] at hpos; simp only [if_pos hpos]; rfl
      · simp only [gt_iff_lt] at hpos; simp only [if_pos hpos]; rfl
    · refine ⟨{ base_cur := cur.base_cur, length := cur.length - 1 }, ?_, rfl, ?_, ?_⟩
      · simp only [take_adaptor.inc, hsub, hsp', Bool.false_eq_true, if_false, if_neg hpos]
      · simp only [gt_iff_lt] at hpos; simp only [if_neg hpos]
      · simp only [gt_iff_lt] at hpos; simp only [if_neg hpos]
  · obtain ⟨stop, hrun, _⟩ :=
      take_adaptor.traverse_from_position B.with_inc_count (min n.toNat N) n
        (Sequence.has_count_view_count _ N n (B.has_count_with_inc_count N hN) hn) hmax
        (min n.toNat N) 0 fuel
        (take_adaptor.first { base_ := B.with_inc_count, count_ := n }) (by omega) hfuel
        (by simp [take_adaptor.first]) (by intro _; rfl)
    have hsteps := take_adaptor.traverse_from_stop _ fuel _ _ stop hrun
    rw [Sequence.length_elements_from] at hsteps
    have hshape := take_adaptor.inc_times_first B.with_inc_count n hmax (min n.toNat N) 0
      (by simp only [Nat.zero_add]; omega)
    have h0 : take_adaptor.stepped_position B.with_inc_count n 0 = 0 := by
      simp [take_adaptor.stepped_position]
    simp only [h0, Nat.zero_add, Nat.cast_zero, sub_zero] at hshape
    have hfirst : take_adaptor.first { base_ := B.with_inc_count, count_ := n }
        = { base_cur := B.with_inc_count.cursor_at 0, length := n } := rfl
    rw [hfirst, hshape] at hsteps
    simp only [Except.ok.injEq] at hsteps
    refine ⟨stop, ?_, ?_⟩
    · rw [Sequence.elements_from_with_inc_count] at hrun
      exact hrun
    · rw [← hsteps]
      simp only [Sequence.cursor_at_with_inc_count, take_adaptor.stepped_position]
      have hmp : B.with_inc_count.multipass_sequence = B.multipass_sequence := rfl
      rw [hmp]
      by_cases hm : B.multipass_sequence = true
      · simp only [hm, if_true]; omega
      · simp only [hm, Bool.false_eq_true, if_false]; omega

/-- C14 at the single-pass form of `[1,2,3,4,5]`: with `n = 3` the loop reads
`1, 2, 3` and calls the base's `inc` twice; the step from length `1` leaves the
base cursor and the counter alone, the step from length `2` advances both.
Over the multipass container the base's `inc` is called three times. -/
theorem single_pass_inc_calls_base_while_length_positive_witness :
    (∃ stop,
      take_adaptor.traverse
          { base_ := (Sequence.of_list [1, 2, 3, 4, 5]).single_pass_only.with_inc_count,
            count_ := 3 } 4
        = some (.ok ([1, 2, 3], stop)) ∧ stop.base_cur.2 = 2) ∧
    (∃ c, take_adaptor.inc
          { base_ := (Sequence.of_list [1, 2, 3, 4, 5]).single_pass_only.with_inc_count,
            count_ := 3 } { base_cur := (2, 2), length := 1 } = .ok c ∧
        c.length = 0 ∧ c.base_cur.1 = 2 ∧ c.base_cur.2 = 2) ∧
    (∃ c, take_adaptor.inc
          { base_ := (Sequence.of_list [1, 2, 3, 4, 5]).single_pass_only.with_inc_count,
            count_ := 3 } { base_cur := (1, 1), length := 2 } = .ok c ∧
        c.length = 1 ∧ c.base_cur.1 = 2 ∧ c.base_cur.2 = 2) ∧
    (∃ stop,
      take_adaptor.traverse
          { base_ := (Sequence.of_list [1, 2, 3, 4, 5]).with_inc_count, count_ := 3 } 4
        = some (.ok ([1, 2, 3], stop)) ∧ stop.base_cur.2 = 3) := by
  have hsp := single_pass_inc_calls_base_while_length_positive
    (Sequence.of_list [1, 2, 3, 4, 5]).single_pass_only 5 3 4
    (by decide) (by decide) (by decide) (by decide)
  have hmp := single_pass_inc_calls_base_while_length_positive
    (Sequence.of_list [1, 2, 3, 4, 5]) 5 3 4
    (by decide) (by decide) (by decide) (by decide)
  refine ⟨hsp.2, ?_, ?_, hmp.2⟩
  · exact hsp.1 rfl { base_cur := (2, 2), length := 1 } (by decide)
  · exact hsp.1 rfl { base_cur := (1, 1), length := 2 } (by decide)

/-- C15 fails as stated: in `take([1,2,3,4,5], 3)` with a predicate that
rejects `2`, the predicate is invoked on two elements (`1` and `2`) and accepts
one, and the returned cursor has length `2`, not `3 - 2`. -/
theorem for_each_while_length_ignores_rejected_call :
    take_adaptor.for_each_while { base_ := Sequence.of_list [1, 2, 3, 4, 5], count_ := 3 }
        (take_adaptor.tallying (fun (_ : Unit) (x : Int) => (decide (x < 2), ()))) 3 ((), 0, 0)
      = some ({ base_cur := 1, length := 2 }, ((), 2, 1)) ∧
    (2 : Int) ≠ 3 - ((2 : Nat) : Int) := by
  refine ⟨rfl, by decide⟩

/-- C15, amended: every call of the wrapped predicate invokes the real
predicate once, and decrements the countdown only when the real predicate
returned true. So for `n > 0` the length of the cursor returned by
`for_each_while` is `n` minus the number of elements the real predicate
accepted, which is the number of elements it was invoked on, or one less when
its last answer was false. -/
theorem for_each_while_length_counts_accepted {κ α π : Type} (B : Sequence κ α) (n : Int)
    (pred : π → α → Bool × π) (p : π) (fuel : Nat) (hn : 0 < n) (hfuel : n.toNat ≤ fuel) :
    (∀ (q : π) (len : Int) (elem : α),
      take_adaptor.counting_pred pred (q, len) elem
        = ((pred q elem).1 && decide (len - 1 > 0),
           ((pred q elem).2, if (pred q elem).1 then len - 1 else len))) ∧
    ∃ c p' invoked accepted,
      take_adaptor.for_each_while { base_ := B, count_ := n } (take_adaptor.tallying pred)
          fuel (p, 0, 0)
        = some (c, (p', invoked, accepted)) ∧
      c.length = n - accepted ∧
      (invoked = accepted ∨ invoked = accepted + 1) := by
  constructor
  · intro q len elem
    cases hq : pred q elem with
    | mk b q' => cases b <;> simp [take_adaptor.counting_pred, hq]
  · have hne : ¬ n = 0 := by omega
    obtain ⟨bc, p', inv', acc', len', hbase, hlen, hinv⟩ :=
      take_adaptor.base_loop_countdown B pred fuel B.first p 0 0 n (by omega) (by omega)
    have hl : len' = n - acc' := by push_cast at hlen; omega
    by_cases hmp : B.multipass_sequence = true
    · by_cases h0 : len' = 0
      · refine ⟨{ base_cur := B.inc bc, length := len' }, p', inv', acc', ?_, hl, by omega⟩
        simp only [take_adaptor.for_each_while, hne, if_false, Sequence.for_each_while]
        rw [hbase]
        simp [hmp, h0]
      · refine ⟨{ base_cur := bc, length := len' }, p', inv', acc', ?_, hl, by omega⟩
        simp only [take_adaptor.for_each_while, hne, if_false, Sequence.for_each_while]
        rw [hbase]
        simp [hmp, h0]
    · refine ⟨{ base_cur := bc, length := len' }, p', inv', acc', ?_, hl, by omega⟩
      simp only [take_adaptor.for_each_while, hne, if_false, Sequence.for_each_while]
      rw [hbase]
      simp [hmp]

/-- C15, amended, at `take([1,2,3,4,5], 3)` with a predicate that rejects `2`:
two invocations, one acceptance, returned length `3 - 1`. -/
theorem for_each_while_length_counts_accepted_witness :
    ∃ c p' invoked accepted,
      take_adaptor.for_each_while { base_ := Sequence.of_list [1, 2, 3, 4, 5], count_ := 3 }
          (take_adaptor.tallying (fun (_ : Unit) (x : Int) => (decide (x < 2), ()))) 3
          ((), 0, 0)
        = some (c, (p', invoked, accepted)) ∧
      c.length = 3 - accepted ∧
      (invoked = accepted ∨ invoked = accepted + 1) :=
  (for_each_while_length_counts_accepted (Sequence.of_list [1, 2, 3, 4, 5]) 3
    (fun (_ : Unit) (x : Int) => (decide (x < 2), ())) () 3 (by decide) (by decide)).2

/-- C16: the length counter never wraps. For every cursor and offset `k`, the
single step `inc` yields the length `cur.length - 1`, `dec` yields
`cur.length + 1` and the jump yields `cur.length - k`, as exact integers,
whenever that result is a `distance_t` value; and each of them ends in the
fatal overflow error, producing no cursor, exactly when it is not. -/
theorem length_steps_checked {κ α : Type} (self : take_adaptor κ α) (cur : cursor_type κ)
    (k : Int) :
    (in_distance_t (cur.length - 1) = true →
      ∃ c, self.inc cur = .ok c ∧ c.length = cur.length - 1) ∧
    (in_distance_t (cur.length - 1) = false → self.inc cur = .error Fatal.overflow) ∧
    (in_distance_t (cur.length + 1) = true →
      ∃ c, self.dec cur = .ok c ∧ c.length = cur.length + 1) ∧
    (in_distance_t (cur.length + 1) = false → self.dec cur = .error Fatal.overflow) ∧
    (in_distance_t (cur.length - k) = true →
      ∃ c, self.inc_offset cur k = .ok c ∧ c.length = cur.length - k) ∧
    (in_distance_t (cur.length - k) = false →
      self.inc_offset cur k = .error Fatal.overflow) := by
  refine ⟨fun h => ?_, fun h => ?_, fun h => ?_, fun h => ?_, fun h => ?_, fun h => ?_⟩
  · have hsub : checked_sub cur.length 1 = .ok (cur.length - 1) := by simp [checked_sub, h]
    by_cases hmp : self.base_.multipass_sequence = true
    · exact ⟨{ base_cur := self.base_.inc cur.base_cur, length := cur.length - 1 },
        by simp only [take_adaptor.inc, hsub, hmp, if_true], rfl⟩
    · by_cases hpos : cur.length - 1 > 0
      · exact ⟨{ base_cur := self.base_.inc cur.base_cur, length := cur.length - 1 },
          by simp only [take_adaptor.inc, hsub, hmp, Bool.false_eq_true, if_false,
            if_pos hpos], rfl⟩
      · exact ⟨{ base_cur := cur.base_cur, length := cur.length - 1 },
          by simp only [take_adaptor.inc, hsub, hmp, Bool.false_eq_true, if_false,
            if_neg hpos], rfl⟩
  · simp [take_adaptor.inc, checked_sub, h]
  · exact ⟨{ base_cur := self.base_.dec cur.base_cur, length := cur.length + 1 },
      by simp [take_adaptor.dec, checked_add, h], rfl⟩
  · simp [take_adaptor.dec, checked_add, h]
  · exact ⟨{ base_cur := self.base_.inc_offset cur.base_cur k, length := cur.length - k },
      by simp [take_adaptor.inc_offset, checked_sub, h], rfl⟩
  · simp [take_adaptor.inc_offset, checked_sub, h]

/-- C16 at the ends of the range: `inc` at the minimum of `distance_t`, `dec`
at the maximum and a jump by `1` at the minimum are fatal; `inc` and the jump
by `2` from length `3`, and `dec` from length `3`, give `2`, `1` and `4`. -/
theorem length_steps_checked_witness :
    take_adaptor.inc { base_ := Sequence.of_list [1, 2, 3], count_ := 3 }
        { base_cur := 0, length := DIST_MIN } = .error Fatal.overflow ∧
    take_adaptor.dec { base_ := Sequence.of_list [1, 2, 3], count_ := 3 }
        { base_cur := 0, length := DIST_MAX } = .error Fatal.overflow ∧
    take_adaptor.inc_offset { base_ := Sequence.of_list [1, 2, 3], count_ := 3 }
        { base_cur := 0, length := DIST_MIN } 1 = .error Fatal.overflow ∧
    (∃ c, take_adaptor.inc { base_ := Sequence.of_list [1, 2, 3], count_ := 3 }
        { base_cur := 0, length := 3 } = .ok c ∧ c.length = 3 - 1) ∧
    (∃ c, take_adaptor.dec { base_ := Sequence.of_list [1, 2, 3], count_ := 3 }
        { base_cur := 0, length := 3 } = .ok c ∧ c.length = 3 + 1) ∧
    (∃ c, take_adaptor.inc_offset { base_ := Sequence.of_list [1, 2, 3], count_ := 3 }
        { base_cur := 0, length := 3 } 2 = .ok c ∧ c.length = 3 - 2) :=
  ⟨(length_steps_checked { base_ := Sequence.of_list [1, 2, 3], count_ := 3 }
      { base_cur := 0, length := DIST_MIN } 1).2.1 (by decide),
   (length_steps_checked { base_ := Sequence.of_list [1, 2, 3], count_ := 3 }
      { base_cur := 0, length := DIST_MAX } 1).2.2.2.1 (by decide),
   (length_steps_checked { base_ := Sequence.of_list [1, 2, 3], count_ := 3 }
      { base_cur := 0, length := DIST_MIN } 1).2.2.2.2.2 (by decide),
   (length_steps_checked { base_ := Sequence.of_list [1, 2, 3], count_ := 3 }
      { base_cur := 0, length := 3 } 2).1 (by decide),
   (length_steps_checked { base_ := Sequence.of_list [1, 2, 3], count_ := 3 }
      { base_cur := 0, length := 3 } 2).2.2.1 (by decide),
   (length_steps_checked { base_ := Sequence.of_list [1, 2, 3], count_ := 3 }
      { base_cur := 0, length := 3 } 2).2.2.2.2.1 (by decide)⟩

/-- C17 fails as stated: the count `2^63`, a non-negative value of an unsigned
64-bit integer type, is not a `distance_t` value; `take` ends in the fatal
error of the checked conversion and returns no adaptor. -/
theorem take_fatal_for_count_above_distance_max :
    (0 : Int) ≤ 9223372036854775808 ∧
    take (Sequence.of_list [1, 2, 3]) 9223372036854775808 = .error Fatal.lossy_cast ∧
    ∀ t, take (Sequence.of_list [1, 2, 3]) 9223372036854775808 ≠ .ok t := by
  have h : take (Sequence.of_list [1, 2, 3]) 9223372036854775808 = .error Fatal.lossy_cast := by
    rfl
  exact ⟨by decide, h, fun t ht => by rw [h] at ht; cases ht⟩

/-- C17, amended: construction fails only for a count that is negative or does
not fit `distance_t`. For every count with `0 ≤ count ≤ DIST_MAX`, `take`
raises no fatal error and returns an adaptor whose `count_` is `count`; a
count above `DIST_MAX` is fatal in the checked conversion; an error of `take`
is the negative-argument error (for a negative `distance_t` value) or the
conversion error (for a value outside `distance_t`); and the only fatal error
of `inc`, `dec`, the jump and `distance` is the overflow of a length. -/
theorem take_fails_only_for_negative_or_unrepresentable {κ α : Type} (s : Sequence κ α)
    (count : Int) :
    (0 ≤ count → count ≤ DIST_MAX → take s count = .ok { base_ := s, count_ := count }) ∧
    (DIST_MAX < count → take s count = .error Fatal.lossy_cast) ∧
    (∀ e, take s count = .error e →
      (e = Fatal.negative_argument ∧ count < 0 ∧ in_distance_t count = true) ∨
      (e = Fatal.lossy_cast ∧ in_distance_t count = false)) ∧
    (∀ (t : take_adaptor κ α) (cur cur' : cursor_type κ) (k : Int) (e : Fatal),
      (t.inc cur = .error e ∨ t.dec cur = .error e ∨ t.inc_offset cur k = .error e ∨
        t.distance cur cur' = .error e) → e = Fatal.overflow) := by
  refine ⟨fun h0 hmax => take_ok s count h0 hmax, fun hgt => ?_, fun e he => ?_, ?_⟩
  · have hnot : in_distance_t count = false := by
      simp [in_distance_t]; intro _; omega
    simp [take, checked_cast, hnot]
  · cases hrep : in_distance_t count with
    | false =>
      right
      simp [take, checked_cast, hrep] at he
      exact ⟨he.symm, rfl⟩
    | true =>
      left
      by_cases hneg : count < 0
      · simp [take, checked_cast, hrep, hneg] at he
        exact ⟨he.symm, hneg, rfl⟩
      · simp [take, checked_cast, hrep, hneg] at he
  · intro t cur cur' k e h
    rcases h with h | h | h | h
    · unfold take_adaptor.inc checked_sub at h
      split at h
      · rename_i e' he'
        split at he'
        · simp at he'
        · simp only [Except.error.injEq] at he' h
          rw [← h, ← he']
      · rename_i d hd
        split at h <;> try split at h
        all_goals simp at h
    · unfold take_adaptor.dec checked_add at h
      split at h
      · rename_i e' he'
        split at he'
        · simp at he'
        · simp only [Except.error.injEq] at he' h
          rw [← h, ← he']
      · simp at h
    · unfold take_adaptor.inc_offset checked_sub at h
      split at h
      · rename_i e' he'
        split at he'
        · simp at he'
        · simp only [Except.error.injEq] at he' h
          rw [← h, ← he']
      · simp at h
    · unfold take_adaptor.distance checked_sub at h
      split at h
      · rename_i e' he'
        split at he'
        · simp at he'
        · simp only [Except.error.injEq] at he' h
          rw [← h, ← he']
      · simp at h

/-- C17, amended, at the counts `0`, the maximum of `distance_t`, `2^63` and
`-1` over a three-element container. -/
theorem take_fails_only_for_negative_or_unrepresentable_witness :
    take (Sequence.of_list [1, 2, 3]) 0
      = .ok { base_ := Sequence.of_list [1, 2, 3], count_ := 0 } ∧
    take (Sequence.of_list [1, 2, 3]) DIST_MAX
      = .ok { base_ := Sequence.of_list [1, 2, 3], count_ := DIST_MAX } ∧
    take (Sequence.of_list [1, 2, 3]) 9223372036854775808 = .error Fatal.lossy_cast ∧
    ((Fatal.negative_argument = Fatal.negative_argument ∧ (-1 : Int) < 0 ∧
        in_distance_t (-1) = true) ∨
      (Fatal.negative_argument = Fatal.lossy_cast ∧ in_distance_t (-1) = false)) :=
  ⟨(take_fails_only_for_negative_or_unrepresentable (Sequence.of_list [1, 2, 3]) 0).1
     (by decide) (by decide),
   (take_fails_only_for_negative_or_unrepresentable (Sequence.of_list [1, 2, 3]) DIST_MAX).1
     (by decide) (by decide),
   (take_fails_only_for_negative_or_unrepresentable (Sequence.of_list [1, 2, 3])
     9223372036854775808).2.1 (by decide),
   (take_fails_only_for_negative_or_unrepresentable (Sequence.of_list [1, 2, 3]) (-1)).2.2.1
     Fatal.negative_argument rfl⟩

/-- C18: over a random-access base (hence multipass) whose jump agrees with
its repeated single steps, and for a cursor whose length is a `distance_t`
value, with no overflow of the length: the jump `inc(c, k)` gives the cursor
of `k` single steps of `inc` when `k ≥ 0`, and for `k = -m < 0` the cursor of
`m` steps of `dec`; `inc(c, 0)` leaves `c` unchanged; and two jumps in a row
give the cursor of the jump by the sum. -/
theorem jump_agrees_with_repeated_steps {κ α : Type} (B : Sequence κ α) (n : Int)
    (cur : cursor_type κ) (hra : B.random_access_sequence = true) (hlaw : B.jump_lawful)
    (hrep : in_distance_t cur.length = true) :
    take_adaptor.random_access_requires { base_ := B, count_ := n } = true ∧
    (∀ k : Nat, DIST_MIN ≤ cur.length - k →
      ∃ c, take_adaptor.inc_offset { base_ := B, count_ := n } cur (k : Int) = .ok c ∧
        take_adaptor.inc_times { base_ := B, count_ := n } k cur = .ok c) ∧
    (∀ m : Nat, cur.length + m ≤ DIST_MAX →
      ∃ c, take_adaptor.inc_offset { base_ := B, count_ := n } cur (-(m : Int)) = .ok c ∧
        take_adaptor.dec_times { base_ := B, count_ := n } m cur = .ok c) ∧
    take_adaptor.inc_offset { base_ := B, count_ := n } cur 0 = .ok cur ∧
    (∀ j k : Int, in_distance_t (cur.length - j) = true →
      in_distance_t (cur.length - j - k) = true →
      ∃ c c', take_adaptor.inc_offset { base_ := B, count_ := n } cur j = .ok c ∧
        take_adaptor.inc_offset { base_ := B, count_ := n } c k = .ok c' ∧
        take_adaptor.inc_offset { base_ := B, count_ := n } cur (j + k) = .ok c') := by
  have hmp := B.multipass_of_random_access hra
  simp only [in_distance_t, Bool.and_eq_true, decide_eq_true_eq] at hrep
  refine ⟨hra, fun k hlo => ?_, fun m hhi => ?_, ?_, fun j k hj hjk => ?_⟩
  · refine ⟨{ base_cur := Nat.iterate B.inc k cur.base_cur, length := cur.length - k }, ?_,
      take_adaptor.inc_times_iterate B n hmp k cur hrep.2 hlo⟩
    have hsub := checked_sub_ok (a := cur.length) (b := (k : Int)) hlo (by omega)
    simp only [take_adaptor.inc_offset, hsub, (hlaw cur.base_cur).1 k]
  · refine ⟨{ base_cur := Nat.iterate B.dec m cur.base_cur, length := cur.length + m }, ?_,
      take_adaptor.dec_times_iterate B n m cur hrep.1 hhi⟩
    have hsub := checked_sub_ok (a := cur.length) (b := -(m : Int)) (by omega) (by omega)
    simp only [take_adaptor.inc_offset, hsub, (hlaw cur.base_cur).2.1 m, sub_neg_eq_add]
  · have hsub := checked_sub_ok (a := cur.length) (b := 0) (by omega) (by omega)
    have hz := (hlaw cur.base_cur).1 0
    simp only [Nat.cast_zero, Function.iterate_zero, id_eq] at hz
    simp only [take_adaptor.inc_offset, hsub, hz, sub_zero]
  · simp only [in_distance_t, Bool.and_eq_true, decide_eq_true_eq] at hj hjk
    have h1 := checked_sub_ok (a := cur.length) (b := j) hj.1 hj.2
    have h2 := checked_sub_ok (a := cur.length - j) (b := k) hjk.1 hjk.2
    have h3 := checked_sub_ok (a := cur.length) (b := j + k) (by omega) (by omega)
    refine ⟨{ base_cur := B.inc_offset cur.base_cur j, length := cur.length - j },
      { base_cur := B.inc_offset cur.base_cur (j + k), length := cur.length - (j + k) },
      ?_, ?_, ?_⟩
    · simp only [take_adaptor.inc_offset, h1]
    · simp only [take_adaptor.inc_offset, h2, (hlaw cur.base_cur).2.2 j k]
      congr 2
      omega
    · simp only [take_adaptor.inc_offset, h3]

/-- C18 at `take([1,2,3,4,5], 3)` and the cursor `(2, 1)`: the jump by `2` is
two single steps, the jump by `-2` is two steps of `dec`, the jump by `0` does
nothing, and the jumps by `2` and `-1` make the jump by `1`. -/
theorem jump_agrees_with_repeated_steps_witness :
    (∃ c, take_adaptor.inc_offset { base_ := Sequence.of_list [1, 2, 3, 4, 5], count_ := 3 }
          { base_cur := 2, length := 1 } ((2 : Nat) : Int) = .ok c ∧
        take_adaptor.inc_times { base_ := Sequence.of_list [1, 2, 3, 4, 5], count_ := 3 } 2
          { base_cur := 2, length := 1 } = .ok c) ∧
    (∃ c, take_adaptor.inc_offset { base_ := Sequence.of_list [1, 2, 3, 4, 5], count_ := 3 }
          { base_cur := 2, length := 1 } (-((2 : Nat) : Int)) = .ok c ∧
        take_adaptor.dec_times { base_ := Sequence.of_list [1, 2, 3, 4, 5], count_ := 3 } 2
          { base_cur := 2, length := 1 } = .ok c) ∧
    take_adaptor.inc_offset { base_ := Sequence.of_list [1, 2, 3, 4, 5], count_ := 3 }
        { base_cur := 2, length := 1 } 0 = .ok { base_cur := 2, length := 1 } ∧
    (∃ c c', take_adaptor.inc_offset { base_ := Sequence.of_list [1, 2, 3, 4, 5], count_ := 3 }
          { base_cur := 2, length := 1 } 2 = .ok c ∧
        take_adaptor.inc_offset { base_ := Sequence.of_list [1, 2, 3, 4, 5], count_ := 3 }
          c (-1) = .ok c' ∧
        take_adaptor.inc_offset { base_ := Sequence.of_list [1, 2, 3, 4, 5], count_ := 3 }
          { base_cur := 2, length := 1 } (2 + -1) = .ok c') := by
  have h := jump_agrees_with_repeated_steps (Sequence.of_list [1, 2, 3, 4, 5]) 3
    { base_cur := 2, length := 1 } rfl (Sequence.of_list_jump_lawful _) (by decide)
  exact ⟨h.2.1 2 (by decide), h.2.2.1 2 (by decide), h.2.2.2.1,
    h.2.2.2.2 2 (-1) (by decide) (by decide)⟩

/-- C19: over a multipass base on which `pos` counts the base positions from
the base's first cursor, every cursor `c` of `take(s, n)` reached from
`first()` by single steps of `inc`, steps of `dec` and jumps that do not
overflow satisfies `c.length + pos(c.base_cur) = n`. Hence two such cursors
are equal exactly when their base cursors are equal, and `c.length <= 0`
holds exactly when the position is at least `n`. -/
theorem reachable_length_is_count_minus_position {κ α : Type} (B : Sequence κ α) (n : Int)
    (pos : κ → Int) (hmp : B.multipass_sequence = true) (hpos : B.position_lawful pos) :
    (∀ c, take_adaptor.reachable { base_ := B, count_ := n } c →
      c.length + pos c.base_cur = n) ∧
    (∀ c₁ c₂, take_adaptor.reachable { base_ := B, count_ := n } c₁ →
      take_adaptor.reachable { base_ := B, count_ := n } c₂ →
      (c₁ = c₂ ↔ c₁.base_cur = c₂.base_cur)) ∧
    (∀ c, take_adaptor.reachable { base_ := B, count_ := n } c →
      (c.length ≤ 0 ↔ n ≤ pos c.base_cur)) := by
  have hinv : ∀ c, take_adaptor.reachable { base_ := B, count_ := n } c →
      c.length + pos c.base_cur = n := by
    intro c hc
    induction hc with
    | first => simp [take_adaptor.first, hpos.1]
    | inc c c' _ hinc ih =>
      obtain ⟨hc', _⟩ := take_adaptor.inc_eq_ok_multipass B n c c' hmp hinc
      rw [hc']; simp only; rw [(hpos.2 c.base_cur).1]; omega
    | dec c c' _ hreq hdec ih =>
      have hc' := take_adaptor.dec_eq_ok B n c c' hdec
      rw [hc']; simp only; rw [(hpos.2 c.base_cur).2.1 hreq]; omega
    | jump c c' k _ hreq hjump ih =>
      have hc' := take_adaptor.inc_offset_eq_ok B n c c' k hjump
      rw [hc']; simp only; rw [(hpos.2 c.base_cur).2.2 hreq k]; omega
  refine ⟨hinv, fun c₁ c₂ h₁ h₂ => ⟨fun h => by rw [h], fun h => ?_⟩, fun c hc => ?_⟩
  · have e₁ := hinv c₁ h₁
    have e₂ := hinv c₂ h₂
    rw [h] at e₁
    have hl : c₁.length = c₂.length := by omega
    cases c₁; cases c₂
    simp only at h hl
    rw [h, hl]
  · have e := hinv c hc
    constructor <;> intro h <;> omega

/-- C19 at `take([1,2,3,4,5], 3)`: the cursor two single steps after
`first()` is `(2, 1)`, and `1 + 2 = 3`; its length is positive and its
position is below the count. -/
theorem reachable_length_is_count_minus_position_witness :
    take_adaptor.reachable { base_ := Sequence.of_list [1, 2, 3, 4, 5], count_ := 3 }
      { base_cur := 2, length := 1 } ∧
    ({ base_cur := 2, length := 1 } : cursor_type Int).length
      + ({ base_cur := 2, length := 1 } : cursor_type Int).base_cur = 3 ∧
    (({ base_cur := 2, length := 1 } : cursor_type Int).length ≤ 0 ↔
      (3 : Int) ≤ ({ base_cur := 2, length := 1 } : cursor_type Int).base_cur) := by
  have hr1 : take_adaptor.reachable { base_ := Sequence.of_list [1, 2, 3, 4, 5], count_ := 3 }
      { base_cur := 1, length := 2 } :=
    take_adaptor.reachable.inc
      (take_adaptor.first { base_ := Sequence.of_list [1, 2, 3, 4, 5], count_ := 3 })
      { base_cur := 1, length := 2 } take_adaptor.reachable.first rfl
  have hr : take_adaptor.reachable { base_ := Sequence.of_list [1, 2, 3, 4, 5], count_ := 3 }
      { base_cur := 2, length := 1 } :=
    @take_adaptor.reachable.inc Int Int
      { base_ := Sequence.of_list [1, 2, 3, 4, 5], count_ := 3 }
      { base_cur := 1, length := 2 } { base_cur := 2, length := 1 } hr1 rfl
  have h := reachable_length_is_count_minus_position (Sequence.of_list [1, 2, 3, 4, 5]) 3
    (fun i => i) rfl (Sequence.of_list_position_lawful _)
  exact ⟨hr, h.1 _ hr, h.2.2 _ hr⟩

end flux
